import Mathlib

/-!
Shallow embedding of the python-sudoku-solver core (cell.py, move.py,
board.py, sudoku.py).  Python objects become immutable Lean structures;
the mutable 81-cell board becomes a `List Cell` threaded through the
operations; Python exceptions become `Option`/error results.  The
container classes (`GenericIterable`, `CellContainer`, `House`) imported
by board.py are absent from the repository sources; their behaviour
(1-based indexing, row-major flattening, `finished`/`contains` queries)
is modelled from the spec and from how board.py and sudoku.py use them.
-/

namespace PySudoku

/-- Coordinate from cell.py: row, column, and the box number derived by
`convertToBox`; equality in Python compares row and column only. -/
structure Coordinate where
  row : Nat
  column : Nat
  box : Nat
deriving DecidableEq, Repr

/-- Coordinate.convertToBox from cell.py. -/
def convertToBox (row column : Nat) : Nat :=
  ((row - 1) / 3) * 3 + (column - 1) / 3 + 1

/-- Coordinate.__init__ computes the box from row and column. -/
def mkCoordinate (row column : Nat) : Coordinate :=
  ⟨row, column, convertToBox row column⟩

/-- Coordinate.__eq__ from cell.py compares row and column only. -/
def coordEqB (a b : Coordinate) : Bool :=
  a.row == b.row && a.column == b.column

/-- Cell from cell.py: a value (0 = unset), nine candidate booleans, and
the incrementally maintained count.  The count is an Int because the
unguarded `__setitem__` bookkeeping can drive it negative. -/
structure Cell where
  value : Int
  candidates : List Bool
  count : Int
  coordinate : Coordinate
deriving DecidableEq, Repr

/-- Cell.__init__ from cell.py: value 0 gives all nine candidates and
count 9; a value in 1..9 gives no candidates and count 0; anything else
raises ValueError (modelled as `none`). -/
def mkCell (v : Int) (k : Coordinate) : Option Cell :=
  if v = 0 then some ⟨0, List.replicate 9 true, 9, k⟩
  else if 0 < v ∧ v < 10 then some ⟨v, List.replicate 9 false, 0, k⟩
  else none

/-- Cell.value setter from cell.py: assigns the value, sets every
candidate to False and the count to 0.  The setter performs no range
check of its own. -/
def setValueCell (v : Int) (c : Cell) : Cell :=
  { c with value := v, candidates := List.replicate 9 false, count := 0 }

/-- Cell.__setitem__ from cell.py: rejects numbers outside 1..9
(ValueError, modelled as `none`), otherwise writes the boolean and
unconditionally adjusts the count by +1 or -1. -/
def setItemCell (n : Int) (v : Bool) (c : Cell) : Option Cell :=
  if n < 1 ∨ 9 < n then none
  else some { c with candidates := c.candidates.set ((n - 1).toNat) v,
                     count := c.count + (if v then 1 else -1) }

/-- Cell.__getitem__ from cell.py reads candidate `n` (1-based).  Python
raises IndexError outside 1..9; every call in the solver passes a number
in 1..9, so out-of-range reads are collapsed to `false` here. -/
def candBit (c : Cell) (n : Int) : Bool :=
  if 1 ≤ n ∧ n ≤ 9 then c.candidates.getD ((n - 1).toNat) false else false

/-- Number of true candidate booleans of a cell (the quantity the
`count` field is supposed to track). -/
def popcount (c : Cell) : Nat :=
  c.candidates.count true

/-- list.index(True): index of the first true boolean, `none` when
there is none (Python raises ValueError). -/
def idxOfTrue : List Bool → Option Nat
  | [] => none
  | x :: t => if x then some 0 else (idxOfTrue t).map (fun i => i + 1)

/-- candidates.index(True) from the strategies: the first true candidate
index, `none` when no candidate is true (Python raises ValueError). -/
def firstTrueIdx (c : Cell) : Option Nat :=
  idxOfTrue c.candidates

/-- ActionType from move.py. -/
inductive ActionType where
  | SET_VALUE
  | ADD_CANDIDATE
  | REMOVE_CANDIDATE
  | SET_CANDIDATE
deriving DecidableEq, Repr

/-- MoveType from move.py (message-only variants included for the
classification tags the strategies produce). -/
inductive MoveType where
  | GENERAL
  | NAKED_SINGLE
  | HIDDEN_SINGLE
  | FULL_HOUSE
  | LOCKED_CANDIDATES1
  | LOCKED_CANDIDATES2
  | NAKED_PAIR
  | NAKED_TRIPLE
  | NAKED_QUAD
  | LOCKED_PAIR
  | LOCKED_TRIPLE
  | LOCKED_QUAD
  | HIDDEN_PAIR
  | HIDDEN_TRIPLE
  | HIDDEN_QUAD
deriving DecidableEq, Repr

/-- Action from move.py: Python stores a reference to the Cell object;
here the cell is identified by its coordinate (the board owns the
cells and coordinates identify them). -/
structure ActionL where
  type : ActionType
  coord : Coordinate
  candidate : Int
deriving DecidableEq, Repr

/-- Action.__init__ captures the target cell (by coordinate here) and
the operand value. -/
def mkAction (t : ActionType) (c : Cell) (cand : Int) : ActionL :=
  ⟨t, c.coordinate, cand⟩

/-- Move from move.py: a classification tag and an ordered list of
actions (messages are not modelled). -/
structure MoveL where
  type : MoveType
  actions : List ActionL
deriving DecidableEq, Repr

/-- The board: the 81 cells of CellContainer, flattened row-major
(`squash`). -/
abbrev Board := List Cell

/-- CellContainer positional index of the 1-based (row, column) pair. -/
def posIndex (r c : Nat) : Nat := (r - 1) * 9 + (c - 1)

/-- self._cells[row][column] with 1-based row and column (CellContainer
indexing as used throughout board.py). -/
def cellAtPos (b : Board) (r c : Nat) : Option Cell :=
  b.get? (posIndex r c)

/-- Board._setHouses buckets the squashed cells by coordinate row; the
row houses keep squash order. -/
def rowsOf (b : Board) (r : Nat) : List Cell :=
  b.filter (fun c => c.coordinate.row == r)

/-- Column house `n`: cells bucketed by coordinate column. -/
def columnsOf (b : Board) (n : Nat) : List Cell :=
  b.filter (fun c => c.coordinate.column == n)

/-- Box house `n`: cells bucketed by coordinate box. -/
def boxesOf (b : Board) (n : Nat) : List Cell :=
  b.filter (fun c => c.coordinate.box == n)

/-- House.__contains__: some member cell's value equals the number. -/
def houseContainsValue (h : List Cell) (n : Int) : Bool :=
  h.any (fun c => c.value == n)

/-- House.finished: the count of members with a positive value is 9
(SubContainer.count / finished, modelled per the spec since the class
itself is not in the sources). -/
def houseFinished (h : List Cell) : Bool :=
  (h.filter (fun c => 0 < c.value)).length == 9

/-- The candidate-number range `range(1, 10)` used by every strategy. -/
def candRange : List Int := [1, 2, 3, 4, 5, 6, 7, 8, 9]

/-- Python `set(...)` cardinality collapse used by allEqual: the unique
element of the iterable when there is exactly one, otherwise 0. -/
def allEqualNat (l : List Nat) : Nat :=
  match l.dedup with
  | [x] => x
  | _ => 0

/-- Membership test `cell in cells` using Cell.__eq__ (coordinate
equality). -/
def cellMem (cs : List Cell) (c : Cell) : Bool :=
  cs.any (fun x => coordEqB x.coordinate c.coordinate)

/-- Board.getPeerCells: the common box/row/column numbers over the whole
group (allEqual), then every board cell matching one of them and not in
the group. -/
def getPeerCells (b : Board) (cs : List Cell) : List Cell :=
  let bN := allEqualNat (cs.map (fun c => c.coordinate.box))
  let rN := allEqualNat (cs.map (fun c => c.coordinate.row))
  let cN := allEqualNat (cs.map (fun c => c.coordinate.column))
  b.filter (fun c =>
    (c.coordinate.box == bN || c.coordinate.row == rN ||
      c.coordinate.column == cN) && !(cellMem cs c))

/-- Board.removeCandidateValues with the solver's key `o[v]`: one
REMOVE_CANDIDATE action per cell currently listing `v` as candidate. -/
def removeCandidateValues (cells : List Cell) (v : Int) : List ActionL :=
  cells.filterMap (fun c =>
    if candBit c v then some (mkAction .REMOVE_CANDIDATE c v) else none)

/-- Board.setCellMove: a SET_VALUE action on the positionally addressed
cell followed by candidate removals on its peers; `none` models the
IndexError of an out-of-range lookup. -/
def setCellMove (b : Board) (t : MoveType) (k : Coordinate) (v : Int) :
    Option MoveL :=
  match cellAtPos b k.row k.column with
  | none => none
  | some cell =>
    let peers := getPeerCells b [cell]
    let secondary := removeCandidateValues peers v
    some ⟨t, mkAction .SET_VALUE cell v :: secondary⟩

/-- Result of a strategy call in single mode: the first Move found, or
no move, or a propagating Python exception. -/
inductive Res where
  | found (m : MoveL)
  | nothing
  | err
deriving DecidableEq, Repr

/-- Loop with early return: the first `found` or `err` produced by the
step function wins, otherwise nothing. -/
def scanFirst {α : Type} (f : α → Res) : List α → Res
  | [] => .nothing
  | a :: t =>
    match f a with
    | .found m => .found m
    | .err => .err
    | .nothing => scanFirst f t

/-- The nine row houses in index order. -/
def rowHouses (b : Board) : List (List Cell) :=
  (List.range' 1 9).map (rowsOf b)

/-- The nine column houses in index order. -/
def columnHouses (b : Board) : List (List Cell) :=
  (List.range' 1 9).map (columnsOf b)

/-- The nine box houses in index order. -/
def boxHouses (b : Board) : List (List Cell) :=
  (List.range' 1 9).map (boxesOf b)

/-- itertools.chain(rows, columns, boxes) as used by validateBoard and
the subset strategies. -/
def allHouses (b : Board) : List (List Cell) :=
  rowHouses b ++ columnHouses b ++ boxHouses b

/-- SudokuSolver.findNakedSingles: first cell whose count is 1; the move
sets it to one plus the index of its first true candidate (ValueError,
modelled `err`, if it has none). -/
def nakedSingleStep (b : Board) (cell : Cell) : Res :=
  if cell.count == 1 then
    match firstTrueIdx cell with
    | some i =>
      match setCellMove b .NAKED_SINGLE cell.coordinate (((i : Int) + 1)) with
      | some m => .found m
      | none => .err
    | none => .err
  else .nothing

/-- findNakedSingles in single mode scans the squashed cells. -/
def findNakedSingles (b : Board) : Res :=
  scanFirst (nakedSingleStep b) b

/-- Inner candidate loop of _findHiddenSinglesExec: a candidate that is
possible in exactly one cell of the house; `house[_index]` is the
1-based House getter, so element `i` of the member list. -/
def hiddenCandStep (b : Board) (house : List Cell) (cand : Int) : Res :=
  let hc := house.map (fun c => candBit c cand)
  if hc.count true == 1 then
    match idxOfTrue hc with
    | some i =>
      match house.get? i with
      | some cell =>
        match setCellMove b .HIDDEN_SINGLE cell.coordinate cand with
        | some m => .found m
        | none => .err
      | none => .err
    | none => .nothing
  else .nothing

/-- House loop of _findHiddenSinglesExec: finished houses are skipped. -/
def hiddenHouseStep (b : Board) (house : List Cell) : Res :=
  if houseFinished house then .nothing
  else scanFirst (hiddenCandStep b house) candRange

/-- findHiddenSingles in single mode: rows, then columns, then boxes. -/
def findHiddenSingles (b : Board) : Res :=
  scanFirst (hiddenHouseStep b) (allHouses b)

/-- House loop body of _findFullHousesExec: a house with exactly one
unfilled cell; the move value is one plus the first true candidate
index of that cell (ValueError, modelled `err`, if it has none). -/
def fullHouseStep (b : Board) (house : List Cell) : Res :=
  match house.filter (fun c => c.value == 0) with
  | [cell] =>
    match firstTrueIdx cell with
    | some i =>
      match setCellMove b .FULL_HOUSE cell.coordinate (((i : Int) + 1)) with
      | some m => .found m
      | none => .err
    | none => .err
  | _ => .nothing

/-- findFullHouses in single mode: rows, then columns, then boxes
(_findFullHousesExec does not skip finished houses; their unfilled list
is empty so they match nothing). -/
def findFullHouses (b : Board) : Res :=
  scanFirst (fullHouseStep b) (allHouses b)

/-- _areCandidatesLocked: the common box paired with a common row or a
common column, when both exist; only its presence is consumed by the
callers modelled here (the houses it returns feed messages). -/
def areCandidatesLocked (cells : List Cell) : Option (Nat × Nat) :=
  let lockedBox := allEqualNat (cells.map (fun c => c.coordinate.box))
  let lockedRow := allEqualNat (cells.map (fun c => c.coordinate.row))
  let lockedColumn := allEqualNat (cells.map (fun c => c.coordinate.column))
  if lockedBox ≠ 0 ∧ lockedRow ≠ 0 then some (lockedBox, lockedRow)
  else if lockedBox ≠ 0 ∧ lockedColumn ≠ 0 then some (lockedBox, lockedColumn)
  else none

/-- Candidate loop body of _findLockedCandidatesExec. -/
def lockedCandStep (b : Board) (t : MoveType) (house : List Cell)
    (cand : Int) : Res :=
  let candidateCells := house.filter (fun c => candBit c cand)
  if candidateCells.length < 2 then .nothing
  else
    match areCandidatesLocked candidateCells with
    | none => .nothing
    | some _ =>
      let peers := getPeerCells b candidateCells
      if peers.isEmpty then .nothing
      else
        let actions := removeCandidateValues peers cand
        if actions.isEmpty then .nothing
        else .found ⟨t, actions⟩

/-- findLockedCandidatesType1 in single mode: unfinished boxes. -/
def findLockedCandidatesType1 (b : Board) : Res :=
  scanFirst (fun house =>
    if houseFinished house then .nothing
    else scanFirst (lockedCandStep b .LOCKED_CANDIDATES1 house) candRange)
    (boxHouses b)

/-- findLockedCandidatesType2 in single mode: unfinished rows and
columns. -/
def findLockedCandidatesType2 (b : Board) : Res :=
  scanFirst (fun house =>
    if houseFinished house then .nothing
    else scanFirst (lockedCandStep b .LOCKED_CANDIDATES2 house) candRange)
    (rowHouses b ++ columnHouses b)

/-- itertools.combinations in the order Python emits: combinations of k
elements, positions lexicographic. -/
def combinations {α : Type} : Nat → List α → List (List α)
  | 0, _ => [[]]
  | _ + 1, [] => []
  | k + 1, a :: t =>
    (combinations k t).map (fun c => a :: c) ++ combinations (k + 1) t

/-- Insertion of an Int into a sorted list (for Python sorted()). -/
def insertSorted (x : Int) : List Int → List Int
  | [] => [x]
  | y :: t => if x ≤ y then x :: y :: t else y :: insertSorted x t

/-- Python sorted() on a list of ints. -/
def sortInts : List Int → List Int
  | [] => []
  | x :: t => insertSorted x (sortInts t)

/-- _NAKED_TUPLE_TYPES lookup. -/
def nakedTupleType (k : Nat) : MoveType :=
  if k == 2 then .NAKED_PAIR else if k == 3 then .NAKED_TRIPLE else .NAKED_QUAD

/-- _LOCKED_TUPLE_TYPES lookup. -/
def lockedTupleType (k : Nat) : MoveType :=
  if k == 2 then .LOCKED_PAIR else if k == 3 then .LOCKED_TRIPLE else .LOCKED_QUAD

/-- _HIDDEN_TUPLE_TYPES lookup. -/
def hiddenTupleType (k : Nat) : MoveType :=
  if k == 2 then .HIDDEN_PAIR else if k == 3 then .HIDDEN_TRIPLE else .HIDDEN_QUAD

/-- Combination body of findNakedDisjointSets: the union of the
combination's candidates (a Python set; only its size and sorted order
are consumed), peers of the whole combination, and the folded removal
actions per sorted candidate. -/
def nakedComboStep (b : Board) (combo : List Cell) : Res :=
  let cumulative := combo.map (fun c => candRange.filter (fun i => candBit c i))
  let discrete := (cumulative.foldr (fun x acc => x ++ acc) []).dedup
  if discrete.length == combo.length then
    let peers := getPeerCells b combo
    if peers.isEmpty then .nothing
    else
      let sortedCandidates := sortInts discrete
      let actions :=
        (sortedCandidates.map (fun cand => removeCandidateValues peers cand)).foldr
          (fun x acc => x ++ acc) []
      if actions.isEmpty then .nothing
      else
        let mt := match areCandidatesLocked combo with
          | some _ => lockedTupleType combo.length
          | none => nakedTupleType combo.length
        .found ⟨mt, actions⟩
  else .nothing

/-- House body of findNakedDisjointSets: unfinished houses with at least
two unfilled cells; combination sizes run over range(2, min(u, 5)),
which excludes min(u, 5) itself. -/
def nakedHouseStep (b : Board) (house : List Cell) : Res :=
  if houseFinished house then .nothing
  else
    let unfilled := house.filter (fun c => c.value == 0)
    if unfilled.length < 2 then .nothing
    else
      let endRange := min unfilled.length 5
      scanFirst (fun k => scanFirst (nakedComboStep b) (combinations k unfilled))
        (List.range' 2 (endRange - 2))

/-- findNakedDisjointSets in single mode over rows, columns, boxes. -/
def findNakedDisjointSets (b : Board) : Res :=
  scanFirst (nakedHouseStep b) (allHouses b)

/-- list(set(range(1,10)) ^ set(values)): the candidate values a house
is still missing plus any resolved values outside 1..9; Python's set
iteration order is unspecified, modelled here as the 1..9 part in
ascending order followed by the out-of-range extras. -/
def symmDiffRange (vals : List Int) : List Int :=
  candRange.filter (fun n => !(vals.contains n)) ++
    vals.dedup.filter (fun v => !(candRange.contains v))

/-- Combination body of findHiddenDisjointSets: cells of the house that
can hold one of the combination's candidate values (a Python set of
cells, deduplicated by object identity), and removals of every other
house candidate from those cells. -/
def hiddenComboStep (unfilled : List Cell) (houseCandidates : List Int)
    (combo : List Int) : Res :=
  let cumulativeCells := combo.map (fun cand => unfilled.filter (fun c => candBit c cand))
  let discreteCells := (cumulativeCells.foldr (fun x acc => x ++ acc) []).dedup
  if discreteCells.length == combo.length then
    let sortedCandidates := sortInts combo
    let disjoint := houseCandidates.filter (fun i => !(sortedCandidates.contains i))
    let actions :=
      (disjoint.map (fun cand => removeCandidateValues discreteCells cand)).foldr
        (fun x acc => x ++ acc) []
    if actions.isEmpty then .nothing
    else .found ⟨hiddenTupleType combo.length, actions⟩
  else .nothing

/-- House body of findHiddenDisjointSets. -/
def hiddenSetsHouseStep (house : List Cell) : Res :=
  if houseFinished house then .nothing
  else
    let unfilled := house.filter (fun c => c.value == 0)
    if unfilled.length < 2 then .nothing
    else
      let vals := house.filterMap (fun c => if c.value == 0 then none else some c.value)
      let houseCandidates := symmDiffRange vals
      scanFirst (fun k =>
          scanFirst (hiddenComboStep unfilled houseCandidates)
            (combinations k houseCandidates))
        (List.range' 2 (min unfilled.length 5 - 2))

/-- findHiddenDisjointSets in single mode over rows, columns, boxes. -/
def findHiddenDisjointSets (b : Board) : Res :=
  scanFirst (fun h => hiddenSetsHouseStep h) (allHouses b)

/-- correctList from validateBoard. -/
def correctList : List Int := [1, 2, 3, 4, 5, 6, 7, 8, 9]

/-- validateBoard: every house's sorted values are exactly 1..9. -/
def validateBoard (b : Board) : Bool :=
  (allHouses b).all (fun h => sortInts (h.map (fun c => c.value)) == correctList)

/-- SudokuSolver._executionOrder: the fixed strategy priority. -/
def executionOrder : List (Board → Res) :=
  [findNakedSingles, findHiddenSingles, findFullHouses,
   findLockedCandidatesType1, findLockedCandidatesType2,
   findNakedDisjointSets, findHiddenDisjointSets]

/-- Outcome of SudokuSolver.__next__: StopIteration when the board
validates, otherwise the first strategy's Move, an implicit None, or a
propagating exception. -/
inductive NextRes where
  | stop
  | move (m : MoveL)
  | noMove
  | err
deriving DecidableEq, Repr

/-- SudokuSolver.__next__. -/
def nextMove (b : Board) : NextRes :=
  if validateBoard b then .stop
  else
    match scanFirst (fun f => f b) executionOrder with
    | .found m => .move m
    | .nothing => .noMove
    | .err => .err

/-- Replace the first cell satisfying the predicate using a fallible
update (an Action mutates the one cell object it references). -/
def replaceFirst (p : Cell → Bool) (f : Cell → Option Cell) :
    List Cell → Option (List Cell)
  | [] => some []
  | c :: t =>
    if p c then (f c).map (fun c' => c' :: t)
    else (replaceFirst p f t).map (fun t' => c :: t')

/-- Action.__call__: dispatches on SET_VALUE, ADD_CANDIDATE and
REMOVE_CANDIDATE; any other type (SET_CANDIDATE) does nothing. -/
def execAction (a : ActionL) (b : Board) : Option Board :=
  match a.type with
  | .SET_VALUE =>
    replaceFirst (fun c => coordEqB c.coordinate a.coord)
      (fun c => some (setValueCell a.candidate c)) b
  | .ADD_CANDIDATE =>
    replaceFirst (fun c => coordEqB c.coordinate a.coord)
      (setItemCell a.candidate true) b
  | .REMOVE_CANDIDATE =>
    replaceFirst (fun c => coordEqB c.coordinate a.coord)
      (setItemCell a.candidate false) b
  | .SET_CANDIDATE => some b

/-- Move.__call__: execute the actions in order. -/
def execMove (m : MoveL) (b : Board) : Option Board :=
  m.actions.foldlM (fun b a => execAction a b) b

/-- Outcomes of SudokuSolver.solve: a normal return carrying
validateBoard, the raised NoMovesFound exception, some other raised
exception (e.g. ValueError from candidates.index), or exhausted fuel. -/
inductive SolveOutcome where
  | done (ok : Bool)
  | raisedNoMoves
  | raisedError
  | fuelOut
deriving DecidableEq, Repr

/-- SudokuSolver.solve as a fuelled loop: each iteration asks __next__
and executes the returned Move, raises NoMovesFound when the iterator
yields None, and returns validateBoard when iteration stops. -/
def solveFuel : Nat → Board → SolveOutcome
  | 0, _ => .fuelOut
  | n + 1, b =>
    match nextMove b with
    | .stop => .done (validateBoard b)
    | .noMove => .raisedNoMoves
    | .err => .raisedError
    | .move m =>
      match execMove m b with
      | some b' => solveFuel n b'
      | none => .raisedError

/-- Board construction, first stage: Board._convertDataToCells with its
9x9 shape validation; cells get 1-based coordinates. -/
def buildRowCells (r : Nat) : Nat → List Int → Option (List Cell)
  | _, [] => some []
  | c, v :: t => do
    let cell ← mkCell v (mkCoordinate r c)
    let rest ← buildRowCells r (c + 1) t
    pure (cell :: rest)

/-- Row loop of _convertDataToCells. -/
def buildRows : Nat → List (List Int) → Option (List Cell)
  | _, [] => some []
  | r, row :: t =>
    if row.length = 9 then do
      let cells ← buildRowCells r 1 row
      let rest ← buildRows (r + 1) t
      pure (cells ++ rest)
    else none

/-- Board._convertDataToCells. -/
def convertDataToCells (array : List (List Int)) : Option Board :=
  if array.length = 9 then buildRows 1 array else none

/-- The membership test of Board._setInitialCandidates: number present
in the cell's row, column or box.  The house lists are the buckets that
Board._setHouses builds once before the candidate loop; cell values
never change during that loop, so their value lists are taken from the
board the loop started from. -/
def initialCondPre (rowVals colVals boxVals : List (List Int))
    (r c n : Nat) : Bool :=
  ((rowVals.get? (r - 1)).getD []).contains (Int.ofNat n) ||
    ((colVals.get? (c - 1)).getD []).contains (Int.ofNat n) ||
    ((boxVals.get? (convertToBox r c - 1)).getD []).contains (Int.ofNat n)

/-- Write one candidate bit of the positionally addressed cell. -/
def setItemAtPos (b : Board) (r c : Nat) (n : Int) (v : Bool) : Option Board :=
  match cellAtPos b r c with
  | none => none
  | some cell => (setItemCell n v cell).map (fun cell' => b.set (posIndex r c) cell')

/-- The (row, column, number) triple loop of _setInitialCandidates. -/
def initialTriples : List (Nat × Nat × Nat) :=
  (List.range' 1 9).foldr (fun r acc =>
    ((List.range' 1 9).foldr (fun c acc2 =>
      ((List.range' 1 9).map (fun n => (r, c, n))) ++ acc2) []) ++ acc) []

/-- Board._setInitialCandidates: for every cell and number, clear the
candidate when the number already occurs in the cell's row, column or
box (per the house buckets of Board._setHouses, whose member values are
fixed for the duration of the loop).  The loop runs over all 81 cells,
filled ones included. -/
def setInitialCandidates (b : Board) : Option Board :=
  let rowVals := (List.range' 1 9).map (fun r => (rowsOf b r).map (fun c => c.value))
  let colVals := (List.range' 1 9).map (fun n => (columnsOf b n).map (fun c => c.value))
  let boxVals := (List.range' 1 9).map (fun n => (boxesOf b n).map (fun c => c.value))
  initialTriples.foldlM (fun b t =>
    if initialCondPre rowVals colVals boxVals t.1 t.2.1 t.2.2 then
      setItemAtPos b t.1 t.2.1 (Int.ofNat t.2.2) false
    else some b) b

/-- Board.__init__: convert the array, then set initial candidates
(house bucketing needs no separate step in this embedding). -/
def boardFromArray (array : List (List Int)) : Option Board := do
  let cells ← convertDataToCells array
  setInitialCandidates cells

/-- Total true candidate bits on the board, the termination measure. -/
def totalBits (b : Board) : Nat :=
  (b.map popcount).sum

/-- Canonical coordinate of flat index i in a constructed board. -/
def canonicalCoord (i : Nat) : Coordinate :=
  mkCoordinate (i / 9 + 1) (i % 9 + 1)

/-- A board as Board.__init__ produces it: 81 cells in row-major order
whose coordinates are the canonical ones and whose candidate lists have
length 9. -/
def Coherent (b : Board) : Prop :=
  b.map (fun c => c.coordinate) = (List.range 81).map canonicalCoord ∧
    ∀ c ∈ b, c.candidates.length = 9

instance (b : Board) : Decidable (Coherent b) := by
  unfold Coherent; infer_instance

/-- Extract the Move of a strategy result. -/
def foundMove : Res → Option MoveL
  | .found m => some m
  | _ => none

/-- Extract the Move of a __next__ result. -/
def moveOfNext : NextRes → Option MoveL
  | .move m => some m
  | _ => none

/-! Concrete test fixtures: initial arrays and hand-built board states
used to instantiate and refute the claims. -/

/-- A 9x9 array with a single clue, 5 at R1C1. -/
def arrC1 : List (List Int) :=
  [[5,0,0,0,0,0,0,0,0],
   [0,0,0,0,0,0,0,0,0],
   [0,0,0,0,0,0,0,0,0],
   [0,0,0,0,0,0,0,0,0],
   [0,0,0,0,0,0,0,0,0],
   [0,0,0,0,0,0,0,0,0],
   [0,0,0,0,0,0,0,0,0],
   [0,0,0,0,0,0,0,0,0],
   [0,0,0,0,0,0,0,0,0]]

/-- A syntactically valid 9x9 array (all values 0..9) whose only empty
cell R1C7 cannot hold any value: row 1 supplies 1..6,8,9 and column 7
already holds a 7 (at R5C7). -/
def arrC9 : List (List Int) :=
  [[1,2,3,4,5,6,0,8,9],
   [4,5,6,7,8,9,1,2,3],
   [7,8,9,1,2,3,4,5,6],
   [2,3,4,5,6,7,8,9,1],
   [5,6,8,9,1,2,7,3,4],
   [8,9,1,2,3,4,5,6,7],
   [3,4,5,6,7,8,9,1,2],
   [6,7,2,8,9,1,3,4,5],
   [9,1,7,3,4,5,6,7,8]]

/-- A resolved cell fixture at flat index i. -/
def filledCell (i : Nat) (v : Int) : Cell :=
  ⟨v, List.replicate 9 false, 0, canonicalCoord i⟩

/-- An unresolved cell fixture at flat index i with given candidate
bits and stored count. -/
def emptyCellBits (i : Nat) (bits : List Bool) (cnt : Int) : Cell :=
  ⟨0, bits, cnt, canonicalCoord i⟩

/-- Candidate-bit list with the given candidate numbers true. -/
def bitsOf (l : List Nat) : List Bool :=
  (List.range 9).map (fun j => l.contains (j + 1))

/-- A coherent board fixture of 81 resolved cells (value 9). -/
def baseBoard : Board := (List.range 81).map (fun i => filledCell i 9)

/-- Overwrite cells of a fixture board at given flat indices. -/
def setCellsAt (b : Board) (l : List (Nat × Cell)) : Board :=
  l.foldl (fun b p => b.set p.1 p.2) b

/-- Full-house state with stale candidates: row 1 holds 1..6,8,9 and
the lone unresolved cell R1C7 still lists 3 and 7 as candidates; the
value forced by the house slot is 7. -/
def cexC2 : Board := setCellsAt baseBoard
  [(0, filledCell 0 1), (1, filledCell 1 2), (2, filledCell 2 3),
   (3, filledCell 3 4), (4, filledCell 4 5), (5, filledCell 5 6),
   (6, emptyCellBits 6 (bitsOf [3, 7]) 2), (7, filledCell 7 8),
   (8, filledCell 8 9)]

/-- Full-house state with fresh candidates: as cexC2 but the lone
unresolved cell's candidate set is exactly the missing value 7. -/
def witC2 : Board := setCellsAt baseBoard
  [(0, filledCell 0 1), (1, filledCell 1 2), (2, filledCell 2 3),
   (3, filledCell 3 4), (4, filledCell 4 5), (5, filledCell 5 6),
   (6, emptyCellBits 6 (bitsOf [7]) 1), (7, filledCell 7 8),
   (8, filledCell 8 9)]

/-- Board where R1C1 is the only cell of row 1 with candidate 7, but
candidate 2 is also confined to R1C1, so the scan meets the 2-single
first. -/
def cexC3 : Board := setCellsAt baseBoard
  [(0, emptyCellBits 0 (bitsOf [2, 7]) 2), (1, emptyCellBits 1 (bitsOf [5]) 1)]

/-- Board whose first hidden single in scan order is candidate 7 in
row 1, confined to R1C1. -/
def witC3 : Board := setCellsAt baseBoard
  [(0, emptyCellBits 0 (bitsOf [5, 7]) 2), (1, emptyCellBits 1 (bitsOf [5]) 1)]

/-- Row 1 has exactly the two unresolved cells R1C1 and R1C9 (distinct
boxes, distinct columns), both with candidates {2,5}, and the filled
R1C5 still has a stale true bit for 2, so a naked-pair elimination
exists; the pair size equals the number of unresolved cells of the
house. -/
def cexC4 : Board := setCellsAt baseBoard
  [(0, emptyCellBits 0 (bitsOf [2, 5]) 2),
   (4, ⟨9, bitsOf [2], 0, canonicalCoord 4⟩),
   (8, emptyCellBits 8 (bitsOf [2, 5]) 2)]

/-- The naked pair of cexC4. -/
def comboC4 : List Cell :=
  [emptyCellBits 0 (bitsOf [2, 5]) 2, emptyCellBits 8 (bitsOf [2, 5]) 2]

/-- A small board with three unresolved cells in row 1, giving the
naked-subset scan a nonempty combination list. -/
def witC4Board : Board := setCellsAt baseBoard
  [(0, emptyCellBits 0 (bitsOf [1, 2]) 2), (1, emptyCellBits 1 (bitsOf [2, 3]) 2),
   (2, emptyCellBits 2 (bitsOf [1, 3]) 2)]

/-- A stuck board: an unresolvable rectangle R1C1, R1C4, R2C1, R2C4
with candidates {1,2} each, spanning two boxes; no strategy produces a
move. -/
def stuckBoard : Board := setCellsAt baseBoard
  [(0, emptyCellBits 0 (bitsOf [1, 2]) 2), (3, emptyCellBits 3 (bitsOf [1, 2]) 2),
   (9, emptyCellBits 9 (bitsOf [1, 2]) 2), (12, emptyCellBits 12 (bitsOf [1, 2]) 2)]

/-- Stale-count state: R1C1 is unresolved with exactly one true
candidate bit (7) but a stored count of 2, so findNakedSingles misses
it and the hidden-single strategy answers first. -/
def cexC7 : Board := setCellsAt baseBoard
  [(0, emptyCellBits 0 (bitsOf [7]) 2)]

/-- Consistent-count state: R1C1 is unresolved with one candidate bit
and count 1. -/
def witC7 : Board := setCellsAt baseBoard
  [(0, emptyCellBits 0 (bitsOf [7]) 1)]

/-- The unset Cell produced by the constructor with value 0. -/
def cellC5 : Cell := ⟨0, List.replicate 9 true, 9, mkCoordinate 1 1⟩

/-- First cell of the board with the given coordinate (the object an
Action's stored reference points to). -/
def findCell (b : Board) (k : Coordinate) : Option Cell :=
  b.find? (fun c => coordEqB c.coordinate k)

/-- An action whose execution strictly lowers the total candidate-bit
count: a SET_VALUE on a cell with a true bit, or a REMOVE_CANDIDATE of
a currently true bit. -/
def headDecreases (b : Board) (a : ActionL) : Prop :=
  match a.type with
  | .SET_VALUE => ∃ c, findCell b a.coord = some c ∧ 0 < popcount c
  | .REMOVE_CANDIDATE => ∃ c, findCell b a.coord = some c ∧ candBit c a.candidate = true
  | _ => False

/-- Moves as the strategies build them: a nonempty action list whose
first action strictly decreases the candidate-bit count and which
contains no ADD_CANDIDATE action. -/
def WFMove (b : Board) (m : MoveL) : Prop :=
  match m.actions with
  | [] => False
  | a :: _ => headDecreases b a ∧ ∀ x ∈ m.actions, x.type ≠ .ADD_CANDIDATE

/-- The flattened scan list of findNakedDisjointSets: for every
unfinished house with at least two unresolved cells, the combinations
of each size in range(2, min(u, 5)), house and size order preserved. -/
def nakedScan (b : Board) : List (List Cell) :=
  (allHouses b).flatMap (fun house =>
    if houseFinished house then []
    else
      let unfilled := house.filter (fun c => c.value == 0)
      if unfilled.length < 2 then []
      else
        (List.range' 2 (min unfilled.length 5 - 2)).flatMap
          (fun k => combinations k unfilled))

/-- Candidate-bit list that is true exactly at value m. -/
def singletonBits (m : Nat) : List Bool :=
  (List.range 9).map (fun j => j + 1 == m)

/-- The first size-2 combination of the witC4Board scan. -/
def comboW : List Cell :=
  [emptyCellBits 0 (bitsOf [1, 2]) 2, emptyCellBits 1 (bitsOf [2, 3]) 2]

/-- The 81 canonical coordinates of a constructed board. -/
def allCoordinates : List Coordinate :=
  (List.range 81).map canonicalCoord

/-- Two coordinates share a house: same box, row or column. -/
def sharesHouse (a b : Coordinate) : Bool :=
  a.box == b.box || a.row == b.row || a.column == b.column

/-- Coordinate-level image of getPeerCells for a single cell. -/
def peerCoordsSingle (k : Coordinate) : List Coordinate :=
  allCoordinates.filter (fun d => sharesHouse d k && !(coordEqB k d))

/-!  Theorems. -/

set_option maxRecDepth 40000

theorem scanFirst_cons {α : Type} (f : α → Res) (a : α) (t : List α) :
    scanFirst f (a :: t) =
      match f a with
      | .found m => .found m
      | .err => .err
      | .nothing => scanFirst f t := rfl

theorem scanFirst_append {α : Type} (f : α → Res) (l₁ l₂ : List α) :
    scanFirst f (l₁ ++ l₂) =
      match scanFirst f l₁ with
      | .nothing => scanFirst f l₂
      | r => r := by
  induction l₁ with
  | nil => simp [scanFirst]
  | cons a t ih =>
    simp only [List.cons_append, scanFirst]
    cases f a <;> simp [ih]

theorem scanFirst_eq_nothing {α : Type} (f : α → Res) (l : List α)
    (h : ∀ a ∈ l, f a = .nothing) : scanFirst f l = .nothing := by
  induction l with
  | nil => rfl
  | cons a t ih =>
    rw [scanFirst_cons, h a (List.mem_cons_self a t)]
    exact ih (fun x hx => h x (List.mem_cons_of_mem a hx))

theorem scanFirst_first_found {α : Type} (f : α → Res) (l₁ l₂ : List α)
    (x : α) (m : MoveL) (h₁ : ∀ y ∈ l₁, f y = .nothing)
    (hx : f x = .found m) : scanFirst f (l₁ ++ x :: l₂) = .found m := by
  rw [scanFirst_append, scanFirst_eq_nothing f l₁ h₁, scanFirst_cons, hx]

theorem scanFirst_found_iff {α : Type} (f : α → Res) (l : List α) (m : MoveL) :
    scanFirst f l = .found m ↔
      ∃ l₁ x l₂, l = l₁ ++ x :: l₂ ∧ (∀ y ∈ l₁, f y = .nothing) ∧
        f x = .found m := by
  constructor
  · intro h
    induction l with
    | nil => simp [scanFirst] at h
    | cons a t ih =>
      rw [scanFirst_cons] at h
      cases hfa : f a with
      | found m' =>
        rw [hfa] at h
        cases h
        exact ⟨[], a, t, rfl, by simp, hfa⟩
      | err => rw [hfa] at h; cases h
      | nothing =>
        rw [hfa] at h
        obtain ⟨l₁, x, l₂, rfl, hall, hx⟩ := ih h
        refine ⟨a :: l₁, x, l₂, rfl, ?_, hx⟩
        intro y hy
        rcases List.mem_cons.1 hy with rfl | hy
        · exact hfa
        · exact hall y hy
  · rintro ⟨l₁, x, l₂, rfl, hall, hx⟩
    exact scanFirst_first_found f l₁ l₂ x m hall hx

theorem scanFirst_found_exists {α : Type} (f : α → Res) (l : List α)
    (m : MoveL) (h : scanFirst f l = .found m) : ∃ a ∈ l, f a = .found m := by
  obtain ⟨l₁, x, l₂, rfl, _, hx⟩ := (scanFirst_found_iff f l m).1 h
  exact ⟨x, by simp, hx⟩

theorem scanFirst_flatMap {α β : Type} (f : β → Res) (g : α → List β)
    (l : List α) :
    scanFirst (fun a => scanFirst f (g a)) l = scanFirst f (l.flatMap g) := by
  induction l with
  | nil => rfl
  | cons a t ih =>
    rw [List.flatMap_cons, scanFirst_append, scanFirst_cons]
    cases scanFirst f (g a) <;> simp [ih]

theorem combinations_mem {α : Type} (k : Nat) (l : List α) (c : List α)
    (h : c ∈ combinations k l) : c.length = k ∧ c ⊆ l := by
  induction l generalizing k c with
  | nil =>
    cases k with
    | zero => simp [combinations] at h; subst h; simp
    | succ k => simp [combinations] at h
  | cons a t ih =>
    cases k with
    | zero => simp [combinations] at h; subst h; simp
    | succ k =>
      simp only [combinations, List.mem_append, List.mem_map] at h
      rcases h with ⟨c', hc', rfl⟩ | h
      · obtain ⟨h1, h2⟩ := ih k c' hc'
        exact ⟨by simp [h1], by
          intro x hx
          rcases List.mem_cons.1 hx with rfl | hx
          · exact List.mem_cons_self _ _
          · exact List.mem_cons_of_mem _ (h2 hx)⟩
      · obtain ⟨h1, h2⟩ := ih (k + 1) c h
        exact ⟨h1, fun x hx => List.mem_cons_of_mem _ (h2 hx)⟩

theorem first_satisfying_split {α : Type} (p : α → Prop) (l : List α)
    (h : ∃ a ∈ l, p a) :
    ∃ l₁ a l₂, l = l₁ ++ a :: l₂ ∧ p a ∧ ∀ x ∈ l₁, ¬p x := by
  induction l with
  | nil => simp at h
  | cons a t ih =>
    by_cases hpa : p a
    · exact ⟨[], a, t, rfl, hpa, by simp⟩
    · obtain ⟨x, hx, hpx⟩ := h
      rcases List.mem_cons.1 hx with rfl | hx
      · exact absurd hpx hpa
      · obtain ⟨l₁, y, l₂, rfl, hpy, hall⟩ := ih ⟨x, hx, hpx⟩
        refine ⟨a :: l₁, y, l₂, rfl, hpy, ?_⟩
        intro z hz
        rcases List.mem_cons.1 hz with rfl | hz
        · exact hpa
        · exact hall z hz

theorem coherent_length {b : Board} (hb : Coherent b) : b.length = 81 := by
  have := congrArg List.length hb.1
  simpa using this

theorem coherent_get? {b : Board} (hb : Coherent b) (i : Nat) (hi : i < 81) :
    ∃ c, b.get? i = some c ∧ c.coordinate = canonicalCoord i := by
  have hlen : b.length = 81 := coherent_length hb
  have h1 : (b.map (fun c => c.coordinate)).get? i =
      (((List.range 81).map canonicalCoord)).get? i := by rw [hb.1]
  rw [List.get?_map, List.get?_map, List.get?_range hi] at h1
  cases hc : b.get? i with
  | none =>
    have : i < b.length := by omega
    rw [List.get?_eq_get this] at hc
    cases hc
  | some c =>
    rw [hc] at h1
    simp at h1
    exact ⟨c, rfl, h1⟩

theorem coherent_mem_index {b : Board} (hb : Coherent b) {c : Cell}
    (hc : c ∈ b) : ∃ i, i < 81 ∧ b.get? i = some c ∧
      c.coordinate = canonicalCoord i := by
  obtain ⟨i, hi⟩ := List.mem_iff_get?.1 hc
  have hlen : i < b.length := by
    by_contra h
    rw [List.get?_eq_none.2 (le_of_not_lt h)] at hi
    cases hi
  have hlt : i < 81 := by
    rw [coherent_length hb] at hlen
    exact hlen
  obtain ⟨c', hc', hcoord⟩ := coherent_get? hb i hlt
  rw [hi] at hc'
  cases hc'
  exact ⟨i, hlt, hi, hcoord⟩

theorem canonical_inj_rc (i j : Nat) (hi : i < 81) (hj : j < 81)
    (h1 : (canonicalCoord i).row = (canonicalCoord j).row)
    (h2 : (canonicalCoord i).column = (canonicalCoord j).column) : i = j := by
  simp only [canonicalCoord, mkCoordinate] at h1 h2
  omega

theorem coherent_unique_rc {b : Board} (hb : Coherent b) {c₁ c₂ : Cell}
    (h₁ : c₁ ∈ b) (h₂ : c₂ ∈ b)
    (hr : c₁.coordinate.row = c₂.coordinate.row)
    (hc : c₁.coordinate.column = c₂.coordinate.column) : c₁ = c₂ := by
  obtain ⟨i, hi, hgi, hci⟩ := coherent_mem_index hb h₁
  obtain ⟨j, hj, hgj, hcj⟩ := coherent_mem_index hb h₂
  rw [hci, hcj] at hr hc
  have := canonical_inj_rc i j hi hj hr hc
  subst this
  rw [hgi] at hgj
  cases hgj
  rfl

theorem coordEqB_self (k : Coordinate) : coordEqB k k = true := by
  simp [coordEqB]

theorem coordEqB_iff (a b : Coordinate) :
    coordEqB a b = true ↔ a.row = b.row ∧ a.column = b.column := by
  simp [coordEqB]

theorem coherent_findCell {b : Board} (hb : Coherent b) {c : Cell}
    (hc : c ∈ b) : findCell b c.coordinate = some c := by
  have hex : ∃ x ∈ b, coordEqB x.coordinate c.coordinate = true :=
    ⟨c, hc, coordEqB_self _⟩
  cases hfind : b.find? (fun x => coordEqB x.coordinate c.coordinate) with
  | none =>
    obtain ⟨x, hx, hpx⟩ := hex
    have := List.find?_eq_none.1 hfind x hx
    rw [hpx] at this
    cases this rfl
  | some c' =>
    have hp0 := List.find?_some hfind
    have hp : coordEqB c'.coordinate c.coordinate = true := hp0
    have hmem : c' ∈ b := List.mem_of_find?_eq_some hfind
    obtain ⟨hr, hcc⟩ := (coordEqB_iff _ _).1 hp
    have : c' = c := coherent_unique_rc hb hmem hc hr hcc
    rw [findCell, hfind, this]

theorem coherent_cellAtPos {b : Board} (hb : Coherent b) {c : Cell}
    (hc : c ∈ b) :
    cellAtPos b c.coordinate.row c.coordinate.column = some c := by
  obtain ⟨i, hi, hgi, hcoord⟩ := coherent_mem_index hb hc
  have hrow : c.coordinate.row = i / 9 + 1 := by rw [hcoord]; rfl
  have hcol : c.coordinate.column = i % 9 + 1 := by rw [hcoord]; rfl
  have hpos : posIndex c.coordinate.row c.coordinate.column = i := by
    rw [hrow, hcol, posIndex]
    simp
    omega
  rw [cellAtPos, hpos, hgi]

theorem setCellMove_type {b : Board} {t : MoveType} {k : Coordinate}
    {v : Int} {m : MoveL} (h : setCellMove b t k v = some m) :
    m.type = t := by
  unfold setCellMove at h
  cases hc : cellAtPos b k.row k.column with
  | none => rw [hc] at h; cases h
  | some cell => rw [hc] at h; cases h; rfl

/-- C6 amended: when the board is unsolved and no strategy in the
pipeline produces a Move, nextMove returns None, but solve raises the
NoMovesFound exception (the raisedNoMoves outcome) rather than
returning a result value. -/
theorem c6_stuck_raises (b : Board) (n : Nat)
    (hval : validateBoard b = false)
    (hall : ∀ f ∈ executionOrder, f b = .nothing) :
    nextMove b = .noMove ∧ solveFuel (n + 1) b = .raisedNoMoves := by
  have h1 : nextMove b = .noMove := by
    unfold nextMove
    rw [hval]
    rw [scanFirst_eq_nothing (fun f => f b) executionOrder
      (fun f hf => hall f hf)]
    rfl
  refine ⟨h1, ?_⟩
  unfold solveFuel
  rw [h1]

/-- C6 witness: the concrete stuck board instantiates the amended
theorem. -/
theorem c6_witness :
    validateBoard stuckBoard = false ∧
    (∀ f ∈ executionOrder, f stuckBoard = .nothing) ∧
    nextMove stuckBoard = .noMove ∧
    solveFuel 1 stuckBoard = .raisedNoMoves := by
  refine ⟨by decide, by decide, ?_, ?_⟩
  · exact (c6_stuck_raises stuckBoard 0 (by decide) (by decide)).1
  · exact (c6_stuck_raises stuckBoard 0 (by decide) (by decide)).2

theorem mem_of_mem_allHouses {b : Board} {h : List Cell} {x : Cell}
    (hh : h ∈ allHouses b) (hx : x ∈ h) : x ∈ b := by
  simp only [allHouses, rowHouses, columnHouses, boxHouses, List.mem_append,
    List.mem_map] at hh
  rcases hh with (⟨r, _, rfl⟩ | ⟨r, _, rfl⟩) | ⟨r, _, rfl⟩ <;>
    exact List.mem_of_mem_filter hx

theorem idxOfTrue_unique (l : List Bool) (j : Nat)
    (hcount : l.count true = 1) (hj : l.get? j = some true) :
    idxOfTrue l = some j := by
  induction l generalizing j with
  | nil => cases hj
  | cons x t ih =>
    cases x with
    | true =>
      have ht : t.count true = 0 := by
        rw [List.count_cons] at hcount
        simp at hcount
        omega
      cases j with
      | zero => rfl
      | succ j' =>
        exfalso
        have hmem : true ∈ t := by
          have hg : t.get? j' = some true := hj
          exact List.get?_mem hg
        have hpos : 0 < t.count true := List.count_pos_iff.2 hmem
        omega
    | false =>
      have ht : t.count true = 1 := by
        rw [List.count_cons] at hcount
        simp at hcount
        exact hcount
      cases j with
      | zero => cases hj
      | succ j' =>
        have hj' : t.get? j' = some true := hj
        have hrec := ih j' ht hj'
        show (idxOfTrue t).map (fun i => i + 1) = some (j' + 1)
        rw [hrec]
        rfl

theorem singleton_firstIdx :
    ∀ m < 10, 1 ≤ m → idxOfTrue (singletonBits m) = some (m - 1) := by
  decide

/-- C7 amended: the next-move computation returns exactly the Move of
the earliest strategy in the fixed priority order that yields one; in
particular, whenever some cell's stored count field is 1 (and every
such cell still has a true candidate bit — automatic when counts are
consistent), the returned Move is a naked-single Move.  The code tests
the stored count, not the number of true bits. -/
theorem c7_pipeline_priority (b : Board) (m : MoveL)
    (hval : validateBoard b = false) :
    (nextMove b = .move m ↔
      ∃ pre f post, executionOrder = pre ++ f :: post ∧
        (∀ g ∈ pre, g b = .nothing) ∧ f b = .found m) ∧
    (Coherent b → (∃ c ∈ b, c.count = 1) →
      (∀ c ∈ b, c.count = 1 → (firstTrueIdx c).isSome) →
      ∃ mv, nextMove b = .move mv ∧ mv.type = .NAKED_SINGLE) := by
  have key : ∀ mm, nextMove b = .move mm ↔
      scanFirst (fun f => f b) executionOrder = .found mm := by
    intro mm
    unfold nextMove
    rw [hval]
    simp only [Bool.false_eq_true, if_false]
    cases h : scanFirst (fun f => f b) executionOrder <;> simp
  constructor
  · rw [key m]
    exact scanFirst_found_iff (fun f => f b) executionOrder m
  · intro hcoh hex hgood
    obtain ⟨pre, c₀, post, hsplit, hp, hnone⟩ :=
      first_satisfying_split (fun c => c.count = 1) b hex
    have hc₀b : c₀ ∈ b := by rw [hsplit]; simp
    have hsome := hgood c₀ hc₀b hp
    obtain ⟨i, hidx⟩ := Option.isSome_iff_exists.1 hsome
    have hpos := coherent_cellAtPos hcoh hc₀b
    obtain ⟨mv, hmv⟩ : ∃ mv,
        setCellMove b .NAKED_SINGLE c₀.coordinate (((i : Int) + 1)) = some mv := by
      unfold setCellMove
      rw [hpos]
      exact ⟨_, rfl⟩
    have hstep : nakedSingleStep b c₀ = .found mv := by
      unfold nakedSingleStep
      have hbeq : (c₀.count == 1) = true := by simp [hp]
      rw [hbeq]
      simp only [if_true, hidx]
      rw [hmv]
    have hearlier : ∀ x ∈ pre, nakedSingleStep b x = .nothing := by
      intro x hx
      unfold nakedSingleStep
      have hne : ¬(x.count = 1) := hnone x hx
      have hf : (x.count == 1) = false := by simp [hne]
      rw [hf]
      simp
    have hfind : findNakedSingles b = .found mv := by
      unfold findNakedSingles
      have h2 := scanFirst_first_found (nakedSingleStep b) pre post c₀ mv
        hearlier hstep
      rw [← hsplit] at h2
      exact h2
    refine ⟨mv, ?_, setCellMove_type hmv⟩
    rw [key mv]
    have hordsplit : executionOrder = [] ++ findNakedSingles ::
        [findHiddenSingles, findFullHouses, findLockedCandidatesType1,
         findLockedCandidatesType2, findNakedDisjointSets,
         findHiddenDisjointSets] := rfl
    rw [hordsplit]
    exact scanFirst_first_found (fun f => f b) [] _ findNakedSingles mv
      (by simp) hfind

/-- C7 witness: on the consistent one-candidate board the pipeline
returns a naked-single Move. -/
theorem c7_witness :
    validateBoard witC7 = false ∧ Coherent witC7 ∧
    (∃ c ∈ witC7, c.count = 1) ∧
    (∃ mv, nextMove witC7 = .move mv ∧ mv.type = .NAKED_SINGLE) := by
  refine ⟨by decide, by decide, by decide, ?_⟩
  exact (c7_pipeline_priority witC7 ⟨.GENERAL, []⟩ (by decide)).2
    (by decide) (by decide) (by decide)

/-- C2 amended: when a house is the first in scan order (rows, columns,
boxes) with exactly one unresolved cell, the full-house strategy
returns a Move that sets that cell to one plus the index of its first
true candidate bit.  That value equals the unique value absent from the
other eight cells exactly when the cell's candidate set is the
singleton of the absent value; with stale multi-candidate state the
move writes the lowest true candidate instead, and a cell with no true
candidate makes the strategy raise. -/
theorem c2_full_house_first_candidate (b : Board)
    (pre post : List (List Cell)) (house : List Cell) (cell : Cell)
    (i mval : Nat)
    (hcoh : Coherent b)
    (hsplit : allHouses b = pre ++ house :: post)
    (hpre : ∀ h ∈ pre, fullHouseStep b h = .nothing)
    (hone : house.filter (fun c => c.value == 0) = [cell])
    (hidx : firstTrueIdx cell = some i) :
    (∃ mv, findFullHouses b = .found mv ∧ mv.type = .FULL_HOUSE ∧
      mv.actions.head? = some (mkAction .SET_VALUE cell (((i : Int) + 1)))) ∧
    (mval < 10 → 1 ≤ mval → cell.candidates = singletonBits mval →
      i + 1 = mval) := by
  have hcell_house : cell ∈ house :=
    List.mem_of_mem_filter (l := house) (by rw [hone]; exact List.mem_singleton_self cell)
  have hhouse : house ∈ allHouses b := by rw [hsplit]; simp
  have hmem : cell ∈ b := mem_of_mem_allHouses hhouse hcell_house
  have hpos := coherent_cellAtPos hcoh hmem
  obtain ⟨mv, hmv, hhead⟩ : ∃ mv,
      setCellMove b .FULL_HOUSE cell.coordinate (((i : Int) + 1)) = some mv ∧
        mv.actions.head? = some (mkAction .SET_VALUE cell (((i : Int) + 1))) := by
    unfold setCellMove
    rw [hpos]
    exact ⟨_, rfl, rfl⟩
  have hstep : fullHouseStep b house = .found mv := by
    unfold fullHouseStep
    rw [hone]
    simp only [hidx]
    rw [hmv]
  constructor
  · refine ⟨mv, ?_, setCellMove_type hmv, hhead⟩
    unfold findFullHouses
    rw [hsplit]
    exact scanFirst_first_found _ pre post house mv hpre hstep
  · intro hm10 hm1 hsingle
    have : firstTrueIdx cell = some (mval - 1) := by
      rw [firstTrueIdx, hsingle]
      exact singleton_firstIdx mval hm10 hm1
    rw [hidx] at this
    injection this with h
    omega

/-- C2 witness: on the fresh full-house board the returned Move writes
the unique missing value 7. -/
theorem c2_witness :
    (rowsOf witC2 1).filter (fun c => c.value == 0) =
      [emptyCellBits 6 (bitsOf [7]) 1] ∧
    firstTrueIdx (emptyCellBits 6 (bitsOf [7]) 1) = some 6 ∧
    (∃ mv, findFullHouses witC2 = .found mv ∧ mv.type = .FULL_HOUSE ∧
      mv.actions.head? =
        some (mkAction .SET_VALUE (emptyCellBits 6 (bitsOf [7]) 1) 7)) := by
  refine ⟨by decide, by decide, ?_⟩
  exact (c2_full_house_first_candidate witC2 []
    ((List.range' 2 8).map (rowsOf witC2) ++
      (columnHouses witC2 ++ boxHouses witC2))
    (rowsOf witC2 1) (emptyCellBits 6 (bitsOf [7]) 1) 6 7
    (by decide) rfl (by simp) (by decide) (by decide)).1

/-- C3 amended: when the pair of an unfinished house and a candidate is
the first hidden single met by the scan (houses in rows, columns, boxes
order, candidates ascending), findHiddenSingles returns a Move whose
set-value action targets the unique cell of that house that can still
hold the candidate, with that candidate as value; an earlier hidden
single in scan order is returned instead. -/
theorem c3_hidden_single_first (b : Board) (pre post : List (List Cell))
    (house : List Cell) (cpre cpost : List Int) (cand : Int) (cell : Cell)
    (hcoh : Coherent b)
    (hsplit : allHouses b = pre ++ house :: post)
    (hpre : ∀ h ∈ pre, hiddenHouseStep b h = .nothing)
    (hfin : houseFinished house = false)
    (hcsplit : candRange = cpre ++ cand :: cpost)
    (hcpre : ∀ c ∈ cpre, hiddenCandStep b house c = .nothing)
    (hcount : (house.map (fun c => candBit c cand)).count true = 1)
    (hmem : cell ∈ house)
    (hbit : candBit cell cand = true) :
    ∃ mv, findHiddenSingles b = .found mv ∧ mv.type = .HIDDEN_SINGLE ∧
      mv.actions.head? = some (mkAction .SET_VALUE cell cand) := by
  obtain ⟨⟨j, hjlt⟩, hjget⟩ := List.mem_iff_get.1 hmem
  have hjget? : house.get? j = some cell := by
    rw [List.get?_eq_get hjlt, hjget]
  have hmapget : (house.map (fun c => candBit c cand)).get? j = some true := by
    rw [List.get?_map, hjget?]
    simp [hbit]
  have hfound := idxOfTrue_unique _ j hcount hmapget
  have hhouse : house ∈ allHouses b := by rw [hsplit]; simp
  have hmemb : cell ∈ b := mem_of_mem_allHouses hhouse hmem
  have hpos := coherent_cellAtPos hcoh hmemb
  obtain ⟨mv, hmv, hhead⟩ : ∃ mv,
      setCellMove b .HIDDEN_SINGLE cell.coordinate cand = some mv ∧
        mv.actions.head? = some (mkAction .SET_VALUE cell cand) := by
    unfold setCellMove
    rw [hpos]
    exact ⟨_, rfl, rfl⟩
  have hstep : hiddenCandStep b house cand = .found mv := by
    unfold hiddenCandStep
    have hbeq : ((house.map (fun c => candBit c cand)).count true == 1) = true := by
      simp [hcount]
    simp only [hbeq, if_true, hfound, hjget?]
    rw [hmv]
  have hhstep : hiddenHouseStep b house = .found mv := by
    unfold hiddenHouseStep
    rw [hfin]
    simp only [Bool.false_eq_true, if_false]
    rw [hcsplit]
    exact scanFirst_first_found _ cpre cpost cand mv hcpre hstep
  refine ⟨mv, ?_, setCellMove_type hmv, hhead⟩
  unfold findHiddenSingles
  rw [hsplit]
  exact scanFirst_first_found _ pre post house mv hpre hhstep

theorem allEqualNat_singleton (x : Nat) : allEqualNat [x] = x := by
  rw [allEqualNat, List.dedup_cons_of_not_mem (by simp), List.dedup_nil]

theorem map_filter_through {α β : Type} (f : α → β) (p : β → Bool)
    (l : List α) : (l.filter (fun a => p (f a))).map f = (l.map f).filter p := by
  induction l with
  | nil => rfl
  | cons a t ih =>
    simp only [List.filter_cons, List.map_cons]
    cases h : p (f a) <;> simp [h, ih]

theorem getPeerCells_single_map {b : Board} (hb : Coherent b) (cell : Cell) :
    (getPeerCells b [cell]).map (fun c => c.coordinate) =
      peerCoordsSingle cell.coordinate := by
  unfold getPeerCells peerCoordsSingle
  simp only [List.map_cons, List.map_nil, allEqualNat_singleton]
  have hpred : ∀ c : Cell,
      ((c.coordinate.box == cell.coordinate.box ||
        c.coordinate.row == cell.coordinate.row ||
        c.coordinate.column == cell.coordinate.column) &&
        !(cellMem [cell] c)) =
      (sharesHouse c.coordinate cell.coordinate &&
        !(coordEqB cell.coordinate c.coordinate)) := by
    intro c
    simp [cellMem, sharesHouse]
  rw [List.filter_congr (fun c _ => hpred c)]
  rw [show (fun c : Cell =>
      sharesHouse c.coordinate cell.coordinate &&
        !(coordEqB cell.coordinate c.coordinate)) =
      (fun c : Cell => (fun d => sharesHouse d cell.coordinate &&
        !(coordEqB cell.coordinate d)) c.coordinate) from rfl]
  rw [map_filter_through (fun c : Cell => c.coordinate)
    (fun d => sharesHouse d cell.coordinate && !(coordEqB cell.coordinate d)) b]
  rw [hb.1]
  rfl

theorem peer_count_20 :
    ∀ k ∈ allCoordinates, (peerCoordsSingle k).length = 20 := by
  decide

theorem coord_bounds :
    ∀ i < 81, 1 ≤ (canonicalCoord i).row ∧ (canonicalCoord i).row ≤ 9 ∧
      1 ≤ (canonicalCoord i).column ∧ (canonicalCoord i).column ≤ 9 ∧
      1 ≤ (canonicalCoord i).box ∧ (canonicalCoord i).box ≤ 9 := by
  decide

theorem coherent_coord_mem {b : Board} (hb : Coherent b) {d : Cell}
    (hd : d ∈ b) : ∃ i, i < 81 ∧ d.coordinate = canonicalCoord i := by
  obtain ⟨i, hi, _, hcoord⟩ := coherent_mem_index hb hd
  exact ⟨i, hi, hcoord⟩

/-- C8: for a single cell of a coherent (validly constructed) board,
getPeerCells returns exactly the 20 cells sharing its row, column or
box, excluding the cell itself; for a group, membership is exactly:
not in the group, and matching a box, row or column number that is
common to the whole group (each necessarily nonzero, so an axis with no
common value contributes no peers). -/
theorem c8_peer_cells (b : Board) (hb : Coherent b) :
    (∀ cell ∈ b, (getPeerCells b [cell]).length = 20 ∧
      (∀ d ∈ b, (d ∈ getPeerCells b [cell] ↔
        (sharesHouse d.coordinate cell.coordinate = true ∧ d ≠ cell)))) ∧
    (∀ (cells : List Cell), ∀ d ∈ b,
      (d ∈ getPeerCells b cells ↔
        (cellMem cells d = false ∧
          ((allEqualNat (cells.map (fun c => c.coordinate.box)) ≠ 0 ∧
             d.coordinate.box =
               allEqualNat (cells.map (fun c => c.coordinate.box))) ∨
           (allEqualNat (cells.map (fun c => c.coordinate.row)) ≠ 0 ∧
             d.coordinate.row =
               allEqualNat (cells.map (fun c => c.coordinate.row))) ∨
           (allEqualNat (cells.map (fun c => c.coordinate.column)) ≠ 0 ∧
             d.coordinate.column =
               allEqualNat (cells.map (fun c => c.coordinate.column))))))) := by
  constructor
  · intro cell hcell
    constructor
    · have h1 := getPeerCells_single_map hb cell
      have h2 : ((getPeerCells b [cell]).map (fun c => c.coordinate)).length =
          (getPeerCells b [cell]).length := List.length_map _ _
      obtain ⟨i, hi, hcoord⟩ := coherent_coord_mem hb hcell
      have hmem : cell.coordinate ∈ allCoordinates := by
        rw [hcoord, allCoordinates]
        exact List.mem_map_of_mem canonicalCoord (List.mem_range.2 hi)
      rw [← h2, h1]
      exact peer_count_20 cell.coordinate hmem
    · intro d hd
      unfold getPeerCells
      simp only [List.mem_filter, List.map_cons, List.map_nil,
        allEqualNat_singleton]
      constructor
      · rintro ⟨-, hp⟩
        have hp' := hp
        simp only [Bool.and_eq_true, Bool.not_eq_true'] at hp'
        obtain ⟨hshare, hne⟩ := hp'
        refine ⟨by simpa [sharesHouse] using hshare, ?_⟩
        intro heq
        subst heq
        rw [cellMem] at hne
        simp [coordEqB_self] at hne
      · rintro ⟨hshare, hne⟩
        refine ⟨hd, ?_⟩
        simp only [Bool.and_eq_true, Bool.not_eq_true']
        constructor
        · simpa [sharesHouse] using hshare
        · rw [cellMem]
          simp only [List.any_cons, List.any_nil, Bool.or_false]
          by_contra hc
          simp only [Bool.not_eq_false] at hc
          obtain ⟨hr, hcc⟩ := (coordEqB_iff _ _).1 hc
          exact hne (coherent_unique_rc hb hd hcell hr.symm hcc.symm)
  · intro cells d hd
    unfold getPeerCells
    simp only [List.mem_filter]
    obtain ⟨i, hi, hcoord⟩ := coherent_coord_mem hb hd
    obtain ⟨hr1, hr9, hc1, hc9, hb1, hb9⟩ := coord_bounds i hi
    constructor
    · rintro ⟨-, hp⟩
      simp only [Bool.and_eq_true, Bool.not_eq_true', Bool.or_eq_true,
        beq_iff_eq] at hp
      obtain ⟨hax, hnm⟩ := hp
      refine ⟨hnm, ?_⟩
      rcases hax with (hbx | hrw) | hcl
      · exact Or.inl ⟨by rw [← hbx, hcoord]; omega, hbx⟩
      · exact Or.inr (Or.inl ⟨by rw [← hrw, hcoord]; omega, hrw⟩)
      · exact Or.inr (Or.inr ⟨by rw [← hcl, hcoord]; omega, hcl⟩)
    · rintro ⟨hnm, hax⟩
      refine ⟨hd, ?_⟩
      simp only [Bool.and_eq_true, Bool.not_eq_true', Bool.or_eq_true,
        beq_iff_eq]
      refine ⟨?_, hnm⟩
      rcases hax with ⟨-, hbx⟩ | ⟨-, hrw⟩ | ⟨-, hcl⟩
      · exact Or.inl (Or.inl hbx)
      · exact Or.inl (Or.inr hrw)
      · exact Or.inr hcl

theorem nakedHouseStep_flat (b : Board) (house : List Cell) :
    nakedHouseStep b house = scanFirst (nakedComboStep b)
      (if houseFinished house then []
       else
         let unfilled := house.filter (fun c => c.value == 0)
         if unfilled.length < 2 then []
         else
           (List.range' 2 (min unfilled.length 5 - 2)).flatMap
             (fun k => combinations k unfilled)) := by
  unfold nakedHouseStep
  by_cases hf : houseFinished house
  · simp [hf, scanFirst]
  · simp only [hf, Bool.false_eq_true, if_false]
    by_cases hlen : (house.filter (fun c => c.value == 0)).length < 2
    · simp [hlen, scanFirst]
    · simp only [hlen, if_false]
      exact scanFirst_flatMap (nakedComboStep b) _ _

/-- C4 amended: findNakedDisjointSets scans, house by house (rows,
columns, boxes) and size by size, the combinations of k unresolved
cells for k in range(2, min(u, 5)) where u is the house's unresolved
count — so 2 ≤ k ≤ 4 and k is always strictly below u, and the case k
equal to the total number of unresolved cells of the house is never
examined; the first combination in that scan order whose step yields a
Move (union of exactly k candidates, nonempty peers, nonempty
eliminations) is the returned one. -/
theorem c4_naked_sets_scan (b : Board) (combo : List Cell)
    (pre post : List (List Cell)) (m : MoveL) :
    (findNakedDisjointSets b = scanFirst (nakedComboStep b) (nakedScan b)) ∧
    (combo ∈ nakedScan b →
      2 ≤ combo.length ∧ combo.length ≤ 4 ∧
      ∃ house ∈ allHouses b, houseFinished house = false ∧
        combo ⊆ house.filter (fun c => c.value == 0) ∧
        combo.length < (house.filter (fun c => c.value == 0)).length) ∧
    (nakedScan b = pre ++ combo :: post →
      (∀ x ∈ pre, nakedComboStep b x = .nothing) →
      nakedComboStep b combo = .found m →
      findNakedDisjointSets b = .found m) := by
  have hflat : findNakedDisjointSets b =
      scanFirst (nakedComboStep b) (nakedScan b) := by
    unfold findNakedDisjointSets nakedScan
    rw [← scanFirst_flatMap (nakedComboStep b) _ (allHouses b)]
    exact congrArg (fun f => scanFirst f (allHouses b))
      (funext (nakedHouseStep_flat b))
  refine ⟨hflat, ?_, ?_⟩
  · intro hmem
    unfold nakedScan at hmem
    rw [List.mem_flatMap] at hmem
    obtain ⟨house, hhouse, hcombo⟩ := hmem
    by_cases hf : houseFinished house
    · simp [hf] at hcombo
    · simp only [hf, Bool.false_eq_true, if_false] at hcombo
      by_cases hlen : (house.filter (fun c => c.value == 0)).length < 2
      · simp [hlen] at hcombo
      · simp only [hlen, if_false] at hcombo
        rw [List.mem_flatMap] at hcombo
        obtain ⟨k, hk, hc⟩ := hcombo
        obtain ⟨hklen, hsub⟩ := combinations_mem k _ combo hc
        have hkrange := List.mem_range'_1.1 hk
        have hu : 2 ≤ (house.filter (fun c => c.value == 0)).length := by
          omega
        refine ⟨by omega, by omega,
          house, hhouse, by simp [hf], hsub, by omega⟩
  · intro hsplit hpre hstep
    rw [hflat, hsplit]
    exact scanFirst_first_found _ pre post combo m hpre hstep

/-- C4 witness: on a house with three unresolved cells the scan list
contains the first pair, its size is 2 which is within 2..4 and below
the house's unresolved count, and the strategy equals its flattened
scan. -/
theorem c4_witness :
    comboW ∈ nakedScan witC4Board ∧
    (2 ≤ comboW.length ∧ comboW.length ≤ 4 ∧
      ∃ house ∈ allHouses witC4Board, houseFinished house = false ∧
        comboW ⊆ house.filter (fun c => c.value == 0) ∧
        comboW.length < (house.filter (fun c => c.value == 0)).length) ∧
    findNakedDisjointSets witC4Board =
      scanFirst (nakedComboStep witC4Board) (nakedScan witC4Board) := by
  refine ⟨by decide, ?_, ?_⟩
  · exact (c4_naked_sets_scan witC4Board comboW [] [] ⟨.GENERAL, []⟩).2.1
      (by decide)
  · exact (c4_naked_sets_scan witC4Board comboW [] [] ⟨.GENERAL, []⟩).1

theorem idxOfTrue_get {l : List Bool} {i : Nat} (h : idxOfTrue l = some i) :
    l.get? i = some true := by
  induction l generalizing i with
  | nil => cases h
  | cons x t ih =>
    cases x with
    | true =>
      have h0 : some 0 = some i := h
      injection h0 with h0
      subst h0
      rfl
    | false =>
      have h' : (idxOfTrue t).map (fun j => j + 1) = some i := h
      cases hidx : idxOfTrue t with
      | none => rw [hidx] at h'; cases h'
      | some j =>
        rw [hidx] at h'
        injection h' with h1
        subst h1
        exact ih hidx

theorem candBit_spec {c : Cell} {n : Int} (h : candBit c n = true) :
    1 ≤ n ∧ n ≤ 9 ∧ c.candidates.get? ((n - 1).toNat) = some true := by
  unfold candBit at h
  split_ifs at h with hrange
  refine ⟨hrange.1, hrange.2, ?_⟩
  rw [List.getD_eq_getD_get?] at h
  cases hg : c.candidates.get? ((n - 1).toNat) with
  | none => rw [hg] at h; cases h
  | some x => rw [hg] at h; simp at h; rw [h]

theorem candBit_pos {c : Cell} {n : Int} (h : candBit c n = true) :
    0 < popcount c := by
  obtain ⟨-, -, hg⟩ := candBit_spec h
  have hmem : true ∈ c.candidates := List.get?_mem hg
  exact List.count_pos_iff.2 hmem

theorem candBit_of_idx {c : Cell} {i : Nat}
    (hlen : c.candidates.length = 9) (hidx : firstTrueIdx c = some i) :
    candBit c (((i : Int) + 1)) = true := by
  have hget := idxOfTrue_get hidx
  have hlt : i < 9 := by
    by_contra hge
    rw [List.get?_eq_none.2 (by omega)] at hget
    cases hget
  unfold candBit
  have h1 : (1 : Int) ≤ ((i : Int) + 1) := by omega
  have h2 : ((i : Int) + 1) ≤ 9 := by omega
  rw [if_pos ⟨h1, h2⟩]
  have hidxnat : (((i : Int) + 1) - 1).toNat = i := by omega
  rw [hidxnat, List.getD_eq_getD_get?, hget]
  rfl

theorem count_set_false_le (l : List Bool) (i : Nat) :
    (l.set i false).count true ≤ l.count true := by
  induction l generalizing i with
  | nil => simp
  | cons x t ih =>
    cases i with
    | zero => cases x <;> simp [List.count_cons]
    | succ j =>
      simp only [List.set_cons_succ, List.count_cons]
      have := ih j
      omega

theorem count_set_false_lt (l : List Bool) (i : Nat)
    (h : l.get? i = some true) :
    (l.set i false).count true + 1 = l.count true := by
  induction l generalizing i with
  | nil => cases h
  | cons x t ih =>
    cases i with
    | zero =>
      have : x = true := by injection h
      subst this
      simp [List.count_cons]
    | succ j =>
      have hj : t.get? j = some true := h
      simp only [List.set_cons_succ, List.count_cons]
      have := ih j hj
      omega

theorem popcount_setValueCell (v : Int) (c : Cell) :
    popcount (setValueCell v c) = 0 := by
  simp [popcount, setValueCell]

theorem setItemCell_false_le {n : Int} {c c' : Cell}
    (h : setItemCell n false c = some c') : popcount c' ≤ popcount c := by
  by_cases hrange : n < 1 ∨ 9 < n
  · rw [setItemCell, if_pos hrange] at h
    cases h
  · rw [setItemCell, if_neg hrange] at h
    injection h with h
    subst h
    simp only [popcount]
    exact count_set_false_le c.candidates ((n - 1).toNat)

theorem setItemCell_true_bit_lt {n : Int} {c c' : Cell}
    (hbit : candBit c n = true) (h : setItemCell n false c = some c') :
    popcount c' + 1 = popcount c := by
  obtain ⟨-, -, hg⟩ := candBit_spec hbit
  by_cases hrange : n < 1 ∨ 9 < n
  · rw [setItemCell, if_pos hrange] at h
    cases h
  · rw [setItemCell, if_neg hrange] at h
    injection h with h
    subst h
    simp only [popcount]
    exact count_set_false_lt c.candidates ((n - 1).toNat) hg

theorem totalBits_cons (c : Cell) (t : List Cell) :
    totalBits (c :: t) = popcount c + totalBits t := by
  simp [totalBits]

theorem replaceFirst_bits_le {p : Cell → Bool} {f : Cell → Option Cell}
    {b b' : Board}
    (hmono : ∀ c c', f c = some c' → popcount c' ≤ popcount c)
    (h : replaceFirst p f b = some b') : totalBits b' ≤ totalBits b := by
  induction b generalizing b' with
  | nil =>
    have hnil : b' = [] := by
      unfold replaceFirst at h
      injection h with h
      exact h.symm
    subst hnil
    exact le_refl _
  | cons c t ih =>
    unfold replaceFirst at h
    split_ifs at h with hp
    · cases hf : f c with
      | none => rw [hf] at h; cases h
      | some c' =>
        rw [hf] at h
        injection h with h
        subst h
        have hle := hmono c c' hf
        rw [totalBits_cons, totalBits_cons]
        omega
    · cases hr : replaceFirst p f t with
      | none => rw [hr] at h; cases h
      | some t' =>
        rw [hr] at h
        injection h with h
        subst h
        have hle := ih hr
        rw [totalBits_cons, totalBits_cons]
        omega

theorem replaceFirst_found {p : Cell → Bool} {f : Cell → Option Cell}
    {b b' : Board} {c : Cell}
    (hfind : b.find? p = some c)
    (h : replaceFirst p f b = some b') :
    ∃ c', f c = some c' ∧
      totalBits b' + popcount c = totalBits b + popcount c' := by
  induction b generalizing b' with
  | nil => cases hfind
  | cons x t ih =>
    unfold replaceFirst at h
    rw [List.find?_cons] at hfind
    cases hp : p x with
    | true =>
      rw [hp] at hfind
      injection hfind with hfind
      rw [hp] at h
      simp only [if_true] at h
      rw [← hfind]
      cases hf : f x with
      | none => rw [hf] at h; cases h
      | some c' =>
        rw [hf] at h
        injection h with h
        subst h
        refine ⟨c', rfl, ?_⟩
        rw [totalBits_cons, totalBits_cons]
        omega
    | false =>
      rw [hp] at hfind h
      simp only [Bool.false_eq_true, if_false] at h
      cases hr : replaceFirst p f t with
      | none => rw [hr] at h; cases h
      | some t' =>
        rw [hr] at h
        injection h with h
        subst h
        obtain ⟨c', hf, hsum⟩ := ih hfind hr
        refine ⟨c', hf, ?_⟩
        rw [totalBits_cons, totalBits_cons]
        omega

theorem execAction_bits_le {a : ActionL} {b b' : Board}
    (hna : a.type ≠ .ADD_CANDIDATE)
    (h : execAction a b = some b') : totalBits b' ≤ totalBits b := by
  unfold execAction at h
  cases ht : a.type with
  | SET_VALUE =>
    rw [ht] at h
    exact replaceFirst_bits_le
      (fun c c' hf => by
        injection hf with hf
        subst hf
        rw [popcount_setValueCell]
        exact Nat.zero_le _) h
  | ADD_CANDIDATE => exact absurd ht hna
  | REMOVE_CANDIDATE =>
    rw [ht] at h
    exact replaceFirst_bits_le
      (fun c c' hf => setItemCell_false_le hf) h
  | SET_CANDIDATE =>
    rw [ht] at h
    injection h with h
    subst h
    exact le_refl _

theorem execAction_head_lt {a : ActionL} {b b' : Board}
    (hdec : headDecreases b a)
    (h : execAction a b = some b') : totalBits b' < totalBits b := by
  unfold execAction at h
  unfold headDecreases at hdec
  cases ht : a.type with
  | SET_VALUE =>
    rw [ht] at h hdec
    obtain ⟨c, hfind, hpos⟩ := hdec
    obtain ⟨c', hf, hsum⟩ := replaceFirst_found hfind h
    injection hf with hf
    subst hf
    rw [popcount_setValueCell] at hsum
    omega
  | ADD_CANDIDATE => rw [ht] at hdec; exact absurd hdec (by simp)
  | REMOVE_CANDIDATE =>
    rw [ht] at h hdec
    obtain ⟨c, hfind, hbit⟩ := hdec
    obtain ⟨c', hf, hsum⟩ := replaceFirst_found hfind h
    have := setItemCell_true_bit_lt hbit hf
    omega
  | SET_CANDIDATE => rw [ht] at hdec; exact absurd hdec (by simp)

theorem execActions_bits_le {l : List ActionL} {b b' : Board}
    (hall : ∀ a ∈ l, a.type ≠ .ADD_CANDIDATE)
    (h : l.foldlM (fun b a => execAction a b) b = some b') :
    totalBits b' ≤ totalBits b := by
  induction l generalizing b with
  | nil =>
    injection h with h
    subst h
    exact le_refl _
  | cons a t ih =>
    rw [List.foldlM_cons] at h
    cases he : execAction a b with
    | none => rw [he] at h; cases h
    | some b₁ =>
      rw [he] at h
      simp only [Option.bind_eq_bind, Option.some_bind] at h
      have h1 := execAction_bits_le (hall a (List.mem_cons_self a t)) he
      have h2 := ih (fun x hx => hall x (List.mem_cons_of_mem a hx)) h
      omega

theorem execMove_wf_lt {m : MoveL} {b b' : Board}
    (hwf : WFMove b m) (h : execMove m b = some b') :
    totalBits b' < totalBits b := by
  unfold WFMove at hwf
  unfold execMove at h
  cases hacts : m.actions with
  | nil => rw [hacts] at hwf; exact absurd hwf (by simp)
  | cons a rest =>
    rw [hacts] at hwf h
    obtain ⟨hdec, hall⟩ := hwf
    rw [List.foldlM_cons] at h
    cases he : execAction a b with
    | none => rw [he] at h; cases h
    | some b₁ =>
      rw [he] at h
      simp only [Option.bind_eq_bind, Option.some_bind] at h
      have h1 := execAction_head_lt hdec he
      have h2 := execActions_bits_le
        (fun x hx => hall x (List.mem_cons_of_mem a hx)) h
      omega

theorem setItemCell_preserves {n : Int} {v : Bool} {c c' : Cell}
    (h : setItemCell n v c = some c') :
    c'.coordinate = c.coordinate ∧
      c'.candidates.length = c.candidates.length := by
  unfold setItemCell at h
  by_cases hrange : n < 1 ∨ 9 < n
  · rw [if_pos hrange] at h
    cases h
  · rw [if_neg hrange] at h
    injection h with h
    subst h
    exact ⟨rfl, List.length_set _ _ _⟩

theorem replaceFirst_map_coord {p : Cell → Bool} {f : Cell → Option Cell}
    {b b' : Board} (h : replaceFirst p f b = some b')
    (hf : ∀ c c', f c = some c' → c'.coordinate = c.coordinate) :
    b'.map (fun c => c.coordinate) = b.map (fun c => c.coordinate) := by
  induction b generalizing b' with
  | nil =>
    injection h with h
    subst h
    rfl
  | cons c t ih =>
    unfold replaceFirst at h
    split_ifs at h with hp
    · cases hfc : f c with
      | none => rw [hfc] at h; cases h
      | some c' =>
        rw [hfc] at h
        injection h with h
        subst h
        simp [hf c c' hfc]
    · cases hr : replaceFirst p f t with
      | none => rw [hr] at h; cases h
      | some t' =>
        rw [hr] at h
        injection h with h
        subst h
        simp [ih hr]

theorem replaceFirst_candlen {p : Cell → Bool} {f : Cell → Option Cell}
    {b b' : Board} (h : replaceFirst p f b = some b')
    (hf : ∀ c c', c ∈ b → f c = some c' → c'.candidates.length = 9)
    (hb : ∀ c ∈ b, c.candidates.length = 9) :
    ∀ c ∈ b', c.candidates.length = 9 := by
  induction b generalizing b' with
  | nil =>
    injection h with h
    subst h
    simp
  | cons c t ih =>
    unfold replaceFirst at h
    split_ifs at h with hp
    · cases hfc : f c with
      | none => rw [hfc] at h; cases h
      | some c' =>
        rw [hfc] at h
        injection h with h
        subst h
        intro x hx
        rcases List.mem_cons.1 hx with rfl | hx
        · exact hf c x (List.mem_cons_self c t) hfc
        · exact hb x (List.mem_cons_of_mem c hx)
    · cases hr : replaceFirst p f t with
      | none => rw [hr] at h; cases h
      | some t' =>
        rw [hr] at h
        injection h with h
        subst h
        intro x hx
        rcases List.mem_cons.1 hx with rfl | hx
        · exact hb x (List.mem_cons_self x t)
        · exact ih hr
            (fun y y' hy hfy => hf y y' (List.mem_cons_of_mem c hy) hfy)
            (fun y hy => hb y (List.mem_cons_of_mem c hy)) x hx

theorem execAction_coherent {a : ActionL} {b b' : Board}
    (hcoh : Coherent b) (h : execAction a b = some b') : Coherent b' := by
  unfold execAction at h
  cases ht : a.type with
  | SET_VALUE =>
    rw [ht] at h
    refine ⟨?_, ?_⟩
    · rw [replaceFirst_map_coord h (fun c c' hf => by
        injection hf with hf
        subst hf
        rfl)]
      exact hcoh.1
    · exact replaceFirst_candlen h
        (fun c c' _ hf => by
          injection hf with hf
          subst hf
          simp [setValueCell])
        hcoh.2
  | ADD_CANDIDATE =>
    rw [ht] at h
    refine ⟨?_, ?_⟩
    · rw [replaceFirst_map_coord h
        (fun c c' hf => (setItemCell_preserves hf).1)]
      exact hcoh.1
    · exact replaceFirst_candlen h
        (fun c c' hc hf => by
          rw [(setItemCell_preserves hf).2]
          exact hcoh.2 c hc)
        hcoh.2
  | REMOVE_CANDIDATE =>
    rw [ht] at h
    refine ⟨?_, ?_⟩
    · rw [replaceFirst_map_coord h
        (fun c c' hf => (setItemCell_preserves hf).1)]
      exact hcoh.1
    · exact replaceFirst_candlen h
        (fun c c' hc hf => by
          rw [(setItemCell_preserves hf).2]
          exact hcoh.2 c hc)
        hcoh.2
  | SET_CANDIDATE =>
    rw [ht] at h
    injection h with h
    subst h
    exact hcoh

theorem execActions_coherent {l : List ActionL} {b b' : Board}
    (hcoh : Coherent b)
    (h : l.foldlM (fun b a => execAction a b) b = some b') : Coherent b' := by
  induction l generalizing b with
  | nil =>
    injection h with h
    subst h
    exact hcoh
  | cons a t ih =>
    rw [List.foldlM_cons] at h
    cases he : execAction a b with
    | none => rw [he] at h; cases h
    | some b₁ =>
      rw [he] at h
      simp only [Option.bind_eq_bind, Option.some_bind] at h
      exact ih (execAction_coherent hcoh he) h

theorem execMove_coherent {m : MoveL} {b b' : Board}
    (hcoh : Coherent b) (h : execMove m b = some b') : Coherent b' :=
  execActions_coherent hcoh h

theorem removeCandidateValues_spec {cells : List Cell} {v : Int}
    {a : ActionL} (h : a ∈ removeCandidateValues cells v) :
    a.type = .REMOVE_CANDIDATE ∧
      ∃ c ∈ cells, a.coord = c.coordinate ∧ a.candidate = v ∧
        candBit c v = true := by
  unfold removeCandidateValues at h
  rw [List.mem_filterMap] at h
  obtain ⟨c, hc, hfc⟩ := h
  by_cases hbit : candBit c v = true
  · rw [if_pos hbit] at hfc
    injection hfc with hfc
    subst hfc
    exact ⟨rfl, c, hc, rfl, rfl, hbit⟩
  · rw [if_neg hbit] at hfc
    cases hfc

theorem getPeerCells_subset (b : Board) (cs : List Cell) :
    getPeerCells b cs ⊆ b := by
  unfold getPeerCells
  exact fun x hx => List.mem_of_mem_filter hx

theorem elimMove_wf {b : Board} {t : MoveType} {acts : List ActionL}
    (hcoh : Coherent b) (hne : acts ≠ [])
    (hrem : ∀ a ∈ acts, a.type = .REMOVE_CANDIDATE ∧
      ∃ c ∈ b, a.coord = c.coordinate ∧ candBit c a.candidate = true) :
    WFMove b (MoveL.mk t acts) := by
  cases acts with
  | nil => exact absurd rfl hne
  | cons a rest =>
    obtain ⟨htype, c, hc, hcoord, hbit⟩ := hrem a (List.mem_cons_self a rest)
    refine ⟨?_, ?_⟩
    · unfold headDecreases
      simp only [htype]
      refine ⟨c, ?_, hbit⟩
      rw [hcoord]
      exact coherent_findCell hcoh hc
    · intro x hx
      rw [(hrem x hx).1]
      simp

theorem setCellMove_wf {b : Board} {t : MoveType} {k : Coordinate}
    {v : Int} {m : MoveL} (hcoh : Coherent b)
    (hmv : setCellMove b t k v = some m)
    (hbit : ∀ cell, cellAtPos b k.row k.column = some cell →
      candBit cell v = true) :
    WFMove b m := by
  unfold setCellMove at hmv
  cases hc : cellAtPos b k.row k.column with
  | none => rw [hc] at hmv; cases hmv
  | some cell =>
    rw [hc] at hmv
    injection hmv with hmv
    subst hmv
    have hcellb : cell ∈ b := List.get?_mem hc
    have hbit' := hbit cell hc
    refine ⟨?_, ?_⟩
    · unfold headDecreases
      simp only [mkAction]
      exact ⟨cell, coherent_findCell hcoh hcellb, candBit_pos hbit'⟩
    · intro x hx
      rcases List.mem_cons.1 hx with rfl | hx
      · simp [mkAction]
      · rw [(removeCandidateValues_spec hx).1]
        simp

theorem mem_foldr_append {α β : Type} (f : β → List α) (l : List β) (a : α)
    (h : a ∈ (l.map f).foldr (fun x acc => x ++ acc) []) :
    ∃ x ∈ l, a ∈ f x := by
  induction l with
  | nil => cases h
  | cons x t ih =>
    simp only [List.map_cons, List.foldr_cons, List.mem_append] at h
    rcases h with h | h
    · exact ⟨x, List.mem_cons_self x t, h⟩
    · obtain ⟨y, hy, ha⟩ := ih h
      exact ⟨y, List.mem_cons_of_mem x hy, ha⟩

theorem findNakedSingles_wf {b : Board} {m : MoveL} (hcoh : Coherent b)
    (h : findNakedSingles b = .found m) : WFMove b m := by
  obtain ⟨cell, hcellb, hstep⟩ := scanFirst_found_exists _ _ _ h
  unfold nakedSingleStep at hstep
  split at hstep
  · split at hstep
    · next i hidx =>
      split at hstep
      · next mv hmv =>
        injection hstep with hmeq
        subst hmeq
        refine setCellMove_wf hcoh hmv ?_
        intro cell' hc'
        have hpos := coherent_cellAtPos hcoh hcellb
        rw [hpos] at hc'
        injection hc' with hc'
        subst hc'
        exact candBit_of_idx (hcoh.2 cell hcellb) hidx
      · cases hstep
    · cases hstep
  · cases hstep

theorem findHiddenSingles_wf {b : Board} {m : MoveL} (hcoh : Coherent b)
    (h : findHiddenSingles b = .found m) : WFMove b m := by
  obtain ⟨house, hhmem, hhstep⟩ := scanFirst_found_exists _ _ _ h
  unfold hiddenHouseStep at hhstep
  split at hhstep
  · cases hhstep
  · obtain ⟨cand, -, hcstep⟩ := scanFirst_found_exists _ _ _ hhstep
    unfold hiddenCandStep at hcstep
    simp only [] at hcstep
    split at hcstep
    · split at hcstep
      · next i hidx =>
        split at hcstep
        · next cell hget =>
          split at hcstep
          · next mv hmv =>
            injection hcstep with hmeq
            subst hmeq
            have hcellh : cell ∈ house := List.get?_mem hget
            have hcellb : cell ∈ b := mem_of_mem_allHouses hhmem hcellh
            have hbit : candBit cell cand = true := by
              have hg := idxOfTrue_get hidx
              rw [List.get?_map, hget] at hg
              injection hg
            refine setCellMove_wf hcoh hmv ?_
            intro cell' hc'
            have hpos := coherent_cellAtPos hcoh hcellb
            rw [hpos] at hc'
            injection hc' with hc'
            subst hc'
            exact hbit
          · cases hcstep
        · cases hcstep
      · cases hcstep
    · cases hcstep

theorem findFullHouses_wf {b : Board} {m : MoveL} (hcoh : Coherent b)
    (h : findFullHouses b = .found m) : WFMove b m := by
  obtain ⟨house, hhmem, hstep⟩ := scanFirst_found_exists _ _ _ h
  unfold fullHouseStep at hstep
  split at hstep
  · next cell hfil =>
    split at hstep
    · next i hidx =>
      split at hstep
      · next mv hmv =>
        injection hstep with hmeq
        subst hmeq
        have hcellh : cell ∈ house := by
          have hcf : cell ∈ house.filter (fun c => c.value == 0) := by
            rw [hfil]
            exact List.mem_singleton_self cell
          exact List.mem_of_mem_filter hcf
        have hcellb : cell ∈ b := mem_of_mem_allHouses hhmem hcellh
        refine setCellMove_wf hcoh hmv ?_
        intro cell' hc'
        have hpos := coherent_cellAtPos hcoh hcellb
        rw [hpos] at hc'
        injection hc' with hc'
        subst hc'
        exact candBit_of_idx (hcoh.2 cell hcellb) hidx
      · cases hstep
    · cases hstep
  · cases hstep

theorem lockedCandStep_wf {b : Board} {t : MoveType} {house : List Cell}
    {cand : Int} {m : MoveL} (hcoh : Coherent b)
    (h : lockedCandStep b t house cand = .found m) : WFMove b m := by
  unfold lockedCandStep at h
  simp only [] at h
  split at h
  · cases h
  · split at h
    · cases h
    · split at h
      · cases h
      · split at h
        · cases h
        · next hane =>
          injection h with hmeq
          subst hmeq
          refine elimMove_wf hcoh ?_ ?_
          · intro hnil
            rw [hnil] at hane
            simp at hane
          · intro a ha
            obtain ⟨htype, c, hc, hcoord, hcand, hbit⟩ :=
              removeCandidateValues_spec ha
            exact ⟨htype, c, getPeerCells_subset b _ hc, hcoord, by
              rw [hcand]; exact hbit⟩

theorem findLockedCandidatesType1_wf {b : Board} {m : MoveL}
    (hcoh : Coherent b)
    (h : findLockedCandidatesType1 b = .found m) : WFMove b m := by
  obtain ⟨house, -, hhstep⟩ := scanFirst_found_exists _ _ _ h
  split at hhstep
  · cases hhstep
  · obtain ⟨cand, -, hcstep⟩ := scanFirst_found_exists _ _ _ hhstep
    exact lockedCandStep_wf hcoh hcstep

theorem findLockedCandidatesType2_wf {b : Board} {m : MoveL}
    (hcoh : Coherent b)
    (h : findLockedCandidatesType2 b = .found m) : WFMove b m := by
  obtain ⟨house, -, hhstep⟩ := scanFirst_found_exists _ _ _ h
  split at hhstep
  · cases hhstep
  · obtain ⟨cand, -, hcstep⟩ := scanFirst_found_exists _ _ _ hhstep
    exact lockedCandStep_wf hcoh hcstep

theorem nakedComboStep_wf {b : Board} {combo : List Cell} {m : MoveL}
    (hcoh : Coherent b)
    (h : nakedComboStep b combo = .found m) : WFMove b m := by
  unfold nakedComboStep at h
  simp only [] at h
  split at h
  · split at h
    · cases h
    · split at h
      · cases h
      · next hane =>
        injection h with hmeq
        subst hmeq
        refine elimMove_wf hcoh ?_ ?_
        · intro hnil
          rw [hnil] at hane
          simp at hane
        · intro a ha
          obtain ⟨cand, -, harem⟩ := mem_foldr_append _ _ a ha
          obtain ⟨htype, c, hc, hcoord, hcand, hbit⟩ :=
            removeCandidateValues_spec harem
          exact ⟨htype, c, getPeerCells_subset b _ hc, hcoord, by
            rw [hcand]; exact hbit⟩
  · cases h

theorem findNakedDisjointSets_wf {b : Board} {m : MoveL}
    (hcoh : Coherent b)
    (h : findNakedDisjointSets b = .found m) : WFMove b m := by
  obtain ⟨house, -, hhstep⟩ := scanFirst_found_exists _ _ _ h
  unfold nakedHouseStep at hhstep
  simp only [] at hhstep
  split at hhstep
  · cases hhstep
  · split at hhstep
    · cases hhstep
    · obtain ⟨k, -, hkstep⟩ := scanFirst_found_exists _ _ _ hhstep
      obtain ⟨combo, -, hcstep⟩ := scanFirst_found_exists _ _ _ hkstep
      exact nakedComboStep_wf hcoh hcstep

theorem hiddenComboStep_wf {b : Board} {house : List Cell}
    {houseCandidates : List Int} {combo : List Int} {m : MoveL}
    (hcoh : Coherent b) (hsub : house.filter (fun c => c.value == 0) ⊆ b)
    (h : hiddenComboStep (house.filter (fun c => c.value == 0))
      houseCandidates combo = .found m) : WFMove b m := by
  unfold hiddenComboStep at h
  simp only [] at h
  split at h
  · split at h
    · cases h
    · next hane =>
      injection h with hmeq
      subst hmeq
      refine elimMove_wf hcoh ?_ ?_
      · intro hnil
        rw [hnil] at hane
        simp at hane
      · intro a ha
        obtain ⟨cand, -, harem⟩ := mem_foldr_append _ _ a ha
        obtain ⟨htype, c, hc, hcoord, hcand, hbit⟩ :=
          removeCandidateValues_spec harem
        have hcb : c ∈ b := by
          have hdd := List.mem_dedup.1 hc
          obtain ⟨cand2, -, hcf⟩ := mem_foldr_append _ _ c hdd
          exact hsub (List.mem_of_mem_filter hcf)
        exact ⟨htype, c, hcb, hcoord, by rw [hcand]; exact hbit⟩
  · cases h

theorem findHiddenDisjointSets_wf {b : Board} {m : MoveL}
    (hcoh : Coherent b)
    (h : findHiddenDisjointSets b = .found m) : WFMove b m := by
  obtain ⟨house, hhmem, hhstep⟩ := scanFirst_found_exists _ _ _ h
  unfold hiddenSetsHouseStep at hhstep
  simp only [] at hhstep
  split at hhstep
  · cases hhstep
  · split at hhstep
    · cases hhstep
    · obtain ⟨k, -, hkstep⟩ := scanFirst_found_exists _ _ _ hhstep
      obtain ⟨combo, -, hcstep⟩ := scanFirst_found_exists _ _ _ hkstep
      exact hiddenComboStep_wf hcoh
        (fun x hx => mem_of_mem_allHouses hhmem (List.mem_of_mem_filter hx))
        hcstep

theorem nextMove_wf {b : Board} {m : MoveL} (hcoh : Coherent b)
    (h : nextMove b = .move m) : WFMove b m := by
  unfold nextMove at h
  split at h
  · cases h
  · split at h
    · next m' hscan =>
      injection h with hmeq
      subst hmeq
      obtain ⟨f, hfmem, hf⟩ := scanFirst_found_exists _ _ _ hscan
      simp only [executionOrder, List.mem_cons, List.not_mem_nil,
        or_false] at hfmem
      rcases hfmem with rfl | rfl | rfl | rfl | rfl | rfl | rfl
      · exact findNakedSingles_wf hcoh hf
      · exact findHiddenSingles_wf hcoh hf
      · exact findFullHouses_wf hcoh hf
      · exact findLockedCandidatesType1_wf hcoh hf
      · exact findLockedCandidatesType2_wf hcoh hf
      · exact findNakedDisjointSets_wf hcoh hf
      · exact findHiddenDisjointSets_wf hcoh hf
    · cases h
    · cases h

/-- C9 amended: the solve loop can never run forever: every Move that
the pipeline returns strictly decreases the total number of true
candidate bits on the board when executed, so with fuel exceeding that
measure the loop always ends — by returning (solved), by raising
NoMovesFound (stuck), or by raising another error (which a
syntactically valid input can trigger), never by exhausting fuel. -/
theorem c9_solve_terminates (fuel : Nat) (b : Board) (hcoh : Coherent b)
    (hfuel : totalBits b < fuel) : solveFuel fuel b ≠ .fuelOut := by
  induction fuel generalizing b with
  | zero => omega
  | succ n ih =>
    unfold solveFuel
    cases hn : nextMove b with
    | stop => simp
    | noMove => simp
    | err => simp
    | move m =>
      cases he : execMove m b with
      | none => simp [he]
      | some b' =>
        have hwf := nextMove_wf hcoh hn
        have hlt := execMove_wf_lt hwf he
        have hcoh' := execMove_coherent hcoh he
        simp only [he]
        exact ih b' hcoh' (by omega)

/-- C9 witness: on the concrete stuck board, fuel above the bit count
suffices. -/
theorem c9_witness :
    Coherent stuckBoard ∧ totalBits stuckBoard < 9 ∧
    solveFuel 9 stuckBoard ≠ .fuelOut :=
  ⟨by decide, by decide, c9_solve_terminates 9 stuckBoard (by decide) (by decide)⟩

/-- C8 witness: the center cell of the base fixture board has exactly
20 peers. -/
theorem c8_witness :
    Coherent baseBoard ∧ filledCell 40 9 ∈ baseBoard ∧
    (getPeerCells baseBoard [filledCell 40 9]).length = 20 :=
  ⟨by decide, by decide,
    ((c8_peer_cells baseBoard (by decide)).1 (filledCell 40 9) (by decide)).1⟩

/-- C3 witness: on witC3 the first hidden single is candidate 7 in
row 1, and the returned Move sets R1C1 to 7. -/
theorem c3_witness :
    ((rowsOf witC3 1).map (fun c => candBit c 7)).count true = 1 ∧
    candBit (emptyCellBits 0 (bitsOf [5, 7]) 2) 7 = true ∧
    (∃ mv, findHiddenSingles witC3 = .found mv ∧
      mv.type = .HIDDEN_SINGLE ∧
      mv.actions.head? =
        some (mkAction .SET_VALUE (emptyCellBits 0 (bitsOf [5, 7]) 2) 7)) := by
  refine ⟨by decide, by decide, ?_⟩
  exact c3_hidden_single_first witC3 []
    ((List.range' 2 8).map (rowsOf witC3) ++
      (columnHouses witC3 ++ boxHouses witC3))
    (rowsOf witC3 1) [1, 2, 3, 4, 5, 6] [8, 9] 7
    (emptyCellBits 0 (bitsOf [5, 7]) 2)
    (by decide) rfl (by simp) (by decide) rfl (by decide) (by decide)
    (by decide) (by decide)

/-- C1: after constructing a Board from the valid single-clue array
arrC1, the filled cell R1C1 has value 5 but count -1 (construction
decrements counts of already-false candidate bits on filled cells), so
a nonzero-valued reachable cell does not have count 0; its candidate
bits are indeed all false. -/
theorem c1_construction_count_bug :
    ((boardFromArray arrC1).map (fun b =>
      (cellAtPos b 1 1).map (fun c => (c.value, c.count, popcount c)))) =
      some (some (5, -1, 0)) := by
  decide

/-- C5 counterexample: setting a Cell's value to 0 (outside 1..9) via
the value setter neither fails nor leaves the cell unchanged — it
clears the candidates; likewise for 17. -/
theorem c5_counterexample :
    mkCell 0 (mkCoordinate 1 1) = some cellC5 ∧
    setValueCell 0 cellC5 ≠ cellC5 ∧
    setValueCell 17 cellC5 ≠ cellC5 ∧
    (setValueCell 0 cellC5).candidates = List.replicate 9 false := by
  decide

/-- C5 amended: the value setter performs no range validation — for
every integer v it assigns value v, clears all candidates and sets the
count to 0; only the Cell constructor validates, accepting exactly 0
and 1..9. -/
theorem c5_setter_no_validation (v : Int) (c : Cell) (k : Coordinate) :
    setValueCell v c = ⟨v, List.replicate 9 false, 0, c.coordinate⟩ ∧
    ((mkCell v k).isSome ↔ (v = 0 ∨ (0 < v ∧ v < 10))) := by
  refine ⟨rfl, ?_⟩
  unfold mkCell
  split_ifs with h1 h2 <;> simp_all

/-- C10: executing an Action whose type is SET_CANDIDATE leaves the
board — hence the target cell's value, candidate bits and count —
unchanged: Action.__call__ dispatches only on SET_VALUE, ADD_CANDIDATE
and REMOVE_CANDIDATE. -/
theorem c10_set_candidate_noop (a : ActionL) (b : Board)
    (h : a.type = .SET_CANDIDATE) : execAction a b = some b := by
  unfold execAction
  rw [h]

/-- C10 witness: a concrete SET_CANDIDATE action on a concrete board is
a successful no-op. -/
theorem c10_witness :
    (ActionL.mk .SET_CANDIDATE (mkCoordinate 1 1) 5).type = .SET_CANDIDATE ∧
    execAction (ActionL.mk .SET_CANDIDATE (mkCoordinate 1 1) 5) baseBoard =
      some baseBoard :=
  ⟨rfl, c10_set_candidate_noop (ActionL.mk .SET_CANDIDATE (mkCoordinate 1 1) 5)
    baseBoard rfl⟩

/-- C2 counterexample: in cexC2, row 1 has exactly one unresolved cell
and the unique value absent from its other eight cells is 7, yet the
full-house strategy returns a Move writing 3 (the cell's lowest stale
candidate), not 7. -/
theorem c2_counterexample :
    ((rowsOf cexC2 1).filter (fun c => c.value == 0)).length = 1 ∧
    (candRange.filter (fun v =>
      !(houseContainsValue ((rowsOf cexC2 1).filter (fun c => !(c.value == 0))) v)))
      = [7] ∧
    (foundMove (findFullHouses cexC2)).map (fun m => m.actions.head?) =
      some (some ⟨.SET_VALUE, mkCoordinate 1 7, 3⟩) ∧
    (foundMove (findFullHouses cexC2)).map (fun m => m.actions.head?) ≠
      some (some ⟨.SET_VALUE, mkCoordinate 1 7, 7⟩) := by
  decide

/-- C3 counterexample: in cexC3, candidate 7 is possible in exactly one
cell of row 1 (R1C1), yet findHiddenSingles returns the move for
candidate 2 — its set-value action writes 2, not 7. -/
theorem c3_counterexample :
    ((rowsOf cexC3 1).map (fun c => candBit c 7)).count true = 1 ∧
    ((cellAtPos cexC3 1 1).map (fun c => candBit c 7)) = some true ∧
    (foundMove (findHiddenSingles cexC3)).map (fun m => m.actions.head?) =
      some (some ⟨.SET_VALUE, mkCoordinate 1 1, 2⟩) ∧
    (foundMove (findHiddenSingles cexC3)).map (fun m => m.actions.head?) ≠
      some (some ⟨.SET_VALUE, mkCoordinate 1 1, 7⟩) := by
  decide

/-- C4 counterexample: in cexC4, row 1 is unfinished, its unresolved
cells are exactly the pair comboC4 with candidate union {2,5} of size
2, and eliminating 2 and 5 from the pair's peers yields an elimination
(the stale bit on R1C5) — yet findNakedDisjointSets returns nothing,
because combination sizes run over range(2, min(u,5)) which excludes
the size u of the pair itself. -/
theorem c4_counterexample :
    houseFinished (rowsOf cexC4 1) = false ∧
    (rowsOf cexC4 1).filter (fun c => c.value == 0) = comboC4 ∧
    ((comboC4.map (fun c => candRange.filter (fun i => candBit c i))).foldr
      (fun x acc => x ++ acc) []).dedup.length = 2 ∧
    (removeCandidateValues (getPeerCells cexC4 comboC4) 2 ++
      removeCandidateValues (getPeerCells cexC4 comboC4) 5) ≠ [] ∧
    findNakedDisjointSets cexC4 = .nothing := by
  decide

/-- C6 counterexample: on the stuck board the solve loop raises the
NoMovesFound exception (modelled by the raisedNoMoves outcome escaping
solve) instead of returning a result value. -/
theorem c6_counterexample :
    validateBoard stuckBoard = false ∧
    nextMove stuckBoard = .noMove ∧
    solveFuel 1 stuckBoard = .raisedNoMoves ∧
    SolveOutcome.raisedNoMoves ≠ SolveOutcome.done true ∧
    SolveOutcome.raisedNoMoves ≠ SolveOutcome.done false := by
  decide

/-- C7 counterexample: in cexC7 the unresolved cell R1C1 has exactly
one true candidate bit, but its stored count is 2, so the move returned
by the next-move computation is a hidden single, not a naked single. -/
theorem c7_counterexample :
    ((cellAtPos cexC7 1 1).map (fun c => (c.value, popcount c))) = some (0, 1) ∧
    validateBoard cexC7 = false ∧
    (moveOfNext (nextMove cexC7)).map (fun m => m.type) =
      some .HIDDEN_SINGLE ∧
    (moveOfNext (nextMove cexC7)).map (fun m => m.type) ≠
      some .NAKED_SINGLE := by
  decide

/-- C9 counterexample: arrC9 is a syntactically valid 9x9 array (all
values 0..9), yet solve neither reaches the solved state nor the stuck
condition: the full-house strategy raises ValueError on the lone
candidate-less cell, so the loop ends with an unrelated exception. -/
theorem c9_counterexample :
    arrC9.length = 9 ∧
    arrC9.all (fun r => r.length == 9 && r.all (fun v => 0 ≤ v && v ≤ 9)) = true ∧
    (boardFromArray arrC9).map (solveFuel 5) = some .raisedError ∧
    SolveOutcome.raisedError ≠ SolveOutcome.raisedNoMoves ∧
    SolveOutcome.raisedError ≠ SolveOutcome.done true ∧
    SolveOutcome.raisedError ≠ SolveOutcome.done false := by
  decide

end PySudoku
